import Mathlib

/-!
Verification of the culinary-advisor multi-agent orchestration core.

This file embeds, in Lean, the three components of the repository that the
specification's claims are about:

* the tolerant JSON extractor `extractJSON` (src/utils/json-parser.ts,
  shipped here as src/unnamed/part_000);
* the retrying model-call wrapper `callGemini` (src/llm/gemini-client.ts);
* the three-phase orchestrator `generateRecipe`
  (src/orchestrator/orchestrator.ts, shipped here as src/unnamed/part_001).

Conventions of the embedding:

* Strings are manipulated as `List Char`; recursions carry an explicit fuel
  argument (always instantiated with the input length at the wrapper) so that
  every definition reduces inside the kernel on concrete inputs.
* Wall-clock quantities (timestamps, durations) are abstracted: an
  `Option Unit` field records only whether the source set the field.
* The remote Gemini endpoint and the per-call composition
  "prompt-render + callGemini + extractJSON" of the orchestrator are modelled
  as outcome environments, matching the spec's view of the Generation Service
  as an opaque collaborator.
-/

namespace CulinaryAdvisor

/-! ## Character and list utilities -/

/-- JSON whitespace as accepted by `JSON.parse`: space, tab, newline, carriage
return. -/
def isWsJson (c : Char) : Bool :=
  c = ' ' || c = '\t' || c = '\n' || c = '\r'

/-- Whitespace as matched by the JavaScript regex class `\s` (restricted to the
ASCII range; the unicode members never occur in the inputs considered here). -/
def isWsJs (c : Char) : Bool :=
  c = ' ' || c = '\t' || c = '\n' || c = '\r' || c = '\x0b' || c = '\x0c'

/-- `leadsWith pat l` is true when `pat` is an initial segment of `l`. -/
def leadsWith : List Char → List Char → Bool
  | [], _ => true
  | _ :: _, [] => false
  | p :: ps, c :: cs => p = c && leadsWith ps cs

/-- `containsSeq pat l`: the character sequence `pat` occurs somewhere in `l`
(`pat` is assumed nonempty). -/
def containsSeq (pat : List Char) : List Char → Bool
  | [] => false
  | c :: cs => leadsWith pat (c :: cs) || containsSeq pat cs

/-- Substring test on strings (models JavaScript `String.includes`). -/
def containsStr (l pat : String) : Bool :=
  containsSeq pat.data l.data

/-- ASCII lower-casing of one character (models `String.toLowerCase`, which the
source only applies to ASCII error messages). -/
def lowerCh (c : Char) : Char :=
  if 'A' ≤ c && c ≤ 'Z' then Char.ofNat (c.toNat + 32) else c

/-- ASCII lower-casing of a string. -/
def lowerStr (s : String) : String :=
  String.mk (s.data.map lowerCh)

/-- Drop leading JavaScript-`\s` whitespace. -/
def dropWsJs : List Char → List Char
  | [] => []
  | c :: cs => if isWsJs c then dropWsJs cs else c :: cs

/-- Drop leading JSON whitespace. -/
def dropWsJson : List Char → List Char
  | [] => []
  | c :: cs => if isWsJson c then dropWsJson cs else c :: cs

/-- The span of leading JavaScript-`\s` whitespace together with the rest. -/
def spanWsJs : List Char → List Char × List Char
  | [] => ([], [])
  | c :: cs =>
    if isWsJs c then
      let p := spanWsJs cs
      (c :: p.1, p.2)
    else ([], c :: cs)

/-- `String.prototype.trim` on char lists (both ends). -/
def trimL (l : List Char) : List Char :=
  ((dropWsJs ((dropWsJs l).reverse)).reverse)

/-! ## The five wrapper-stripping rewrites of `extractJSON`

The source applies, in order:
1. `text.replace(/```json\s*/g, '')`
2. `.replace(/```\s*/g, '')`
3. `.replace(/\/\/.*$/gm, '')`
4. `.replace(/\/\*[\s\S]*?\*\//g, '')`
5. `.replace(/,(\s*[}\]])/g, '$1')`

Each is modelled as a left-to-right scanner; the scanner resumes after the
replaced text exactly as a JavaScript global regex replace resumes after a
match. Fuel is the length of the input. -/

/-- Everything from the scan point up to (but excluding) the next newline is
dropped: the tail starting at the newline is returned. Models `.*$` in
multiline mode. -/
def keepFromNewline : List Char → List Char
  | [] => []
  | c :: cs => if c = '\n' then c :: cs else keepFromNewline cs

/-- The tail immediately after the first occurrence of the two characters
`*/`, if any (used for the lazy block-comment regex). -/
def afterStarSlash : List Char → Option (List Char)
  | [] => none
  | [_] => none
  | c :: d :: cs =>
    if c = '*' && d = '/' then some cs
    else afterStarSlash (d :: cs)

def fenceJsonPat : List Char := ['`', '`', '`', 'j', 's', 'o', 'n']

def fencePat : List Char := ['`', '`', '`']

/-- Pass 1: remove every occurrence of ```` ```json ```` together with the
whitespace run following it. -/
def stripFenceJsonF : Nat → List Char → List Char
  | 0, l => l
  | _ + 1, [] => []
  | fuel + 1, c :: cs =>
    if leadsWith fenceJsonPat (c :: cs) then
      stripFenceJsonF fuel (dropWsJs ((c :: cs).drop 7))
    else c :: stripFenceJsonF fuel cs

def stripFenceJson (l : List Char) : List Char := stripFenceJsonF l.length l

/-- Pass 2: remove every occurrence of ```` ``` ```` together with the
whitespace run following it. -/
def stripFenceF : Nat → List Char → List Char
  | 0, l => l
  | _ + 1, [] => []
  | fuel + 1, c :: cs =>
    if leadsWith fencePat (c :: cs) then
      stripFenceF fuel (dropWsJs ((c :: cs).drop 3))
    else c :: stripFenceF fuel cs

def stripFence (l : List Char) : List Char := stripFenceF l.length l

/-- Pass 3: on each line, remove everything from the first `//` to the end of
the line. -/
def stripLineCommentsF : Nat → List Char → List Char
  | 0, l => l
  | _ + 1, [] => []
  | fuel + 1, c :: cs =>
    if leadsWith ['/', '/'] (c :: cs) then
      stripLineCommentsF fuel (keepFromNewline cs)
    else c :: stripLineCommentsF fuel cs

def stripLineComments (l : List Char) : List Char := stripLineCommentsF l.length l

/-- Pass 4: remove every lazily-matched block comment `/* ... */`. A `/*` with
no later `*/` is not a match and is emitted unchanged. -/
def stripBlockCommentsF : Nat → List Char → List Char
  | 0, l => l
  | _ + 1, [] => []
  | fuel + 1, c :: cs =>
    if leadsWith ['/', '*'] (c :: cs) then
      match afterStarSlash (cs.drop 1) with
      | some rest => stripBlockCommentsF fuel rest
      | none => c :: stripBlockCommentsF fuel cs
    else c :: stripBlockCommentsF fuel cs

def stripBlockComments (l : List Char) : List Char := stripBlockCommentsF l.length l

/-- Does the scan point sit on a trailing-comma match, i.e. is the list of the
form `\s*` followed by `}` or `]`? (The comma itself has already been seen.) -/
def trailingCommaHere (l : List Char) : Bool :=
  match (spanWsJs l).2 with
  | [] => false
  | c :: _ => c = '}' || c = ']'

/-- Pass 5: delete a comma whenever it is followed by optional whitespace and a
closing brace or bracket; the whitespace and the bracket are kept and the scan
resumes after the bracket. -/
def stripTrailingCommasF : Nat → List Char → List Char
  | 0, l => l
  | _ + 1, [] => []
  | fuel + 1, c :: cs =>
    if c = ',' && trailingCommaHere cs then
      let p := spanWsJs cs
      match p.2 with
      | [] => c :: cs
      | b :: rest => p.1 ++ b :: stripTrailingCommasF fuel rest
    else c :: stripTrailingCommasF fuel cs

def stripTrailingCommas (l : List Char) : List Char := stripTrailingCommasF l.length l

/-- The composed cleaning applied by `extractJSON` before the first parse
attempt (source lines 5–12). -/
def cleanText (l : List Char) : List Char :=
  stripTrailingCommas (stripBlockComments (stripLineComments (stripFence (stripFenceJson l))))

/-! ## JSON values

JavaScript JSON values. Numbers are restricted to integers: no claim involves
fractional numbers, and the repository's schemas use integer counts. The
mutual presentation (instead of a nested `List`) keeps all recursions
structural, hence kernel-computable. -/

mutual
inductive Json where
  | null : Json
  | bool (b : Bool) : Json
  | num (n : Int) : Json
  | str (s : String) : Json
  | arr (elems : JsonList) : Json
  | obj (members : JsonFields) : Json

inductive JsonList where
  | nil : JsonList
  | cons (hd : Json) (tl : JsonList) : JsonList

inductive JsonFields where
  | nil : JsonFields
  | cons (key : String) (val : Json) (tl : JsonFields) : JsonFields
end

/-- Number of elements of a parsed JSON array (JavaScript `parsed.length`). -/
def JsonList.length : JsonList → Nat
  | .nil => 0
  | .cons _ tl => 1 + tl.length

/-! ## Rendering (JSON.stringify)

`JSON.stringify` with no spacing argument: no whitespace, fields in order,
strings quoted with the standard short escapes. Control characters other than
`\n`, `\r`, `\t`, `\b`, `\f` would be emitted as `\u00XX` by JavaScript; that
case is not modelled (no claim exercises it) and such characters are excluded
by `safeChar` wherever rendering is quantified over. -/

/-- One character of a JSON string literal as emitted by `JSON.stringify`. -/
def escChar (c : Char) : List Char :=
  if c = '"' then ['\\', '"']
  else if c = '\\' then ['\\', '\\']
  else if c = '\n' then ['\\', 'n']
  else if c = '\r' then ['\\', 'r']
  else if c = '\t' then ['\\', 't']
  else if c = '\x08' then ['\\', 'b']
  else if c = '\x0c' then ['\\', 'f']
  else [c]

def escapeList : List Char → List Char
  | [] => []
  | c :: cs => escChar c ++ escapeList cs

/-- A rendered JSON string literal, quotes included. -/
def renderStr (s : String) : List Char :=
  '"' :: escapeList s.data ++ ['"']

/-- Decimal digits of a positive natural number, most significant first
(empty for zero; fuel bounds the number of digits and `n` itself always
suffices). -/
def natCharsF : Nat → Nat → List Char
  | 0, _ => []
  | fuel + 1, n =>
    if n = 0 then []
    else natCharsF fuel (n / 10) ++ [Char.ofNat (48 + n % 10)]

/-- Decimal digits of a natural number, most significant first. -/
def natChars (n : Nat) : List Char := natCharsF n n

/-- A rendered JSON integer (JavaScript number formatting for integers). -/
def intChars (n : Int) : List Char :=
  if n < 0 then '-' :: natChars n.natAbs
  else if n = 0 then ['0']
  else natChars n.toNat

mutual
def renderJson : Json → List Char
  | .null => 'n' :: ['u', 'l', 'l']
  | .bool true => 't' :: ['r', 'u', 'e']
  | .bool false => 'f' :: ['a', 'l', 's', 'e']
  | .num n => intChars n
  | .str s => renderStr s
  | .arr .nil => ['[', ']']
  | .arr (.cons v vs) => '[' :: (renderJson v ++ renderArrTail vs)
  | .obj .nil => ['{', '}']
  | .obj (.cons k v fs) => '{' :: (renderStr k ++ ':' :: (renderJson v ++ renderObjTail fs))

def renderArrTail : JsonList → List Char
  | .nil => [']']
  | .cons v vs => ',' :: (renderJson v ++ renderArrTail vs)

def renderObjTail : JsonFields → List Char
  | .nil => ['}']
  | .cons k v fs => ',' :: (renderStr k ++ ':' :: (renderJson v ++ renderObjTail fs))
end

/-! ## Parsing (JSON.parse)

A recursive-descent parser for the JSON grammar, faithful to `JSON.parse` on
every input appearing in this development. Two deliberate restrictions, both
outside the inputs any claim touches: number syntax covers optional sign and
digits (no fraction/exponent), and string escapes cover the short forms (no
`\uXXXX`). Fuel decreases whenever the parser descends into a nested value;
the wrapper supplies `length + 1`, which is always sufficient. -/

def isDigitCh (c : Char) : Bool :=
  c = '0' || c = '1' || c = '2' || c = '3' || c = '4' ||
    c = '5' || c = '6' || c = '7' || c = '8' || c = '9'

/-- Does the list start with the character `c`? -/
def headIs (c : Char) : List Char → Bool
  | [] => false
  | d :: _ => d = c

/-- The leading run of decimal digits together with the rest. -/
def spanDigits : List Char → List Char × List Char
  | [] => ([], [])
  | c :: cs =>
    if isDigitCh c then
      let p := spanDigits cs
      (c :: p.1, p.2)
    else ([], c :: cs)

/-- Value of a list of decimal digits, most significant first. -/
def digitsVal (l : List Char) : Nat :=
  l.foldl (fun a c => a * 10 + (c.toNat - 48)) 0

/-- Value of one hexadecimal digit, as accepted in a `\uXXXX` escape. -/
def hexVal (c : Char) : Option Nat :=
  if '0' ≤ c && c ≤ '9' then some (c.toNat - 48)
  else if 'a' ≤ c && c ≤ 'f' then some (c.toNat - 87)
  else if 'A' ≤ c && c ≤ 'F' then some (c.toNat - 55)
  else none

/-- Inverse of `escChar` on the character after a backslash. -/
def unescCh (c : Char) : Option Char :=
  if c = '"' then some '"'
  else if c = '\\' then some '\\'
  else if c = '/' then some '/'
  else if c = 'n' then some '\n'
  else if c = 'r' then some '\r'
  else if c = 't' then some '\t'
  else if c = 'b' then some '\x08'
  else if c = 'f' then some '\x0c'
  else none

/-- Parse the body of a string literal (the opening quote has been consumed):
returns the decoded characters and the tail after the closing quote. Fuel
bounds the recursion; the input length always suffices. `\uXXXX` escapes are
decoded through `hexVal`; a code point in the surrogate range (not a unicode
scalar, so not a `Char`) is outside the model. -/
def parseStrF : Nat → List Char → Option (List Char × List Char)
  | 0, _ => none
  | _ + 1, [] => none
  | fuel + 1, c :: rest =>
    if c = '"' then some ([], rest)
    else if c = '\\' then
      match rest with
      | [] => none
      | e :: rest1 =>
        match unescCh e with
        | some d => (parseStrF fuel rest1).map fun p => (d :: p.1, p.2)
        | none =>
          if e = 'u' then
            match rest1 with
            | d1 :: d2 :: d3 :: d4 :: rest2 =>
              match hexVal d1, hexVal d2, hexVal d3, hexVal d4 with
              | some n1, some n2, some n3, some n4 =>
                if 55296 ≤ ((n1 * 16 + n2) * 16 + n3) * 16 + n4 &&
                    ((n1 * 16 + n2) * 16 + n3) * 16 + n4 ≤ 57343 then none
                else
                  (parseStrF fuel rest2).map fun p =>
                    (Char.ofNat (((n1 * 16 + n2) * 16 + n3) * 16 + n4) :: p.1, p.2)
              | _, _, _, _ => none
            | _ => none
          else none
    else (parseStrF fuel rest).map fun p => (c :: p.1, p.2)

def parseStrChars (l : List Char) : Option (List Char × List Char) :=
  parseStrF l.length l

mutual
def parseValF : Nat → List Char → Option (Json × List Char)
  | 0, _ => none
  | fuel + 1, l =>
    match dropWsJson l with
    | [] => none
    | c :: cs =>
      if leadsWith ['n', 'u', 'l', 'l'] (c :: cs) then some (.null, (c :: cs).drop 4)
      else if leadsWith ['t', 'r', 'u', 'e'] (c :: cs) then some (.bool true, (c :: cs).drop 4)
      else if leadsWith ['f', 'a', 'l', 's', 'e'] (c :: cs) then
        some (.bool false, (c :: cs).drop 5)
      else if c = '"' then
        match parseStrChars cs with
        | some (body, rest1) => some (.str (String.mk body), rest1)
        | none => none
      else if c = '[' then
        (if headIs ']' (dropWsJson cs) then some (.arr .nil, (dropWsJson cs).tail)
         else
           match parseValF fuel cs with
           | some (v, rest1) =>
             match parseArrTailF fuel rest1 with
             | some (vs, rest2) => some (.arr (.cons v vs), rest2)
             | none => none
           | none => none)
      else if c = '{' then
        (if headIs '}' (dropWsJson cs) then some (.obj .nil, (dropWsJson cs).tail)
         else
           match parseMemberF fuel cs with
           | some (fs, rest1) => some (.obj fs, rest1)
           | none => none)
      else if c = '-' then
        (match spanDigits cs with
         | ([], _) => none
         | (ds, rest1) => some (.num (-(digitsVal ds : Int)), rest1))
      else if isDigitCh c then
        match spanDigits (c :: cs) with
        | (ds, rest1) => some (.num (digitsVal ds), rest1)
      else none

/-- After one array element: `,` element … or `]`. -/
def parseArrTailF : Nat → List Char → Option (JsonList × List Char)
  | 0, _ => none
  | fuel + 1, l =>
    match dropWsJson l with
    | ']' :: rest => some (.nil, rest)
    | ',' :: rest =>
      (match parseValF fuel rest with
       | some (v, rest1) =>
         match parseArrTailF fuel rest1 with
         | some (vs, rest2) => some (.cons v vs, rest2)
         | none => none
       | none => none)
    | _ => none

/-- One object member (`"key" : value`) followed by the remaining members. -/
def parseMemberF : Nat → List Char → Option (JsonFields × List Char)
  | 0, _ => none
  | fuel + 1, l =>
    match dropWsJson l with
    | '"' :: rest =>
      (match parseStrChars rest with
       | some (k, rest1) =>
         (match dropWsJson rest1 with
          | ':' :: rest2 =>
            (match parseValF fuel rest2 with
             | some (v, rest3) =>
               match parseObjTailF fuel rest3 with
               | some (fs, rest4) => some (.cons (String.mk k) v fs, rest4)
               | none => none
             | none => none)
          | _ => none)
       | none => none)
    | _ => none

/-- After one object member: `,` member … or `}`. -/
def parseObjTailF : Nat → List Char → Option (JsonFields × List Char)
  | 0, _ => none
  | fuel + 1, l =>
    match dropWsJson l with
    | '}' :: rest => some (.nil, rest)
    | ',' :: rest => parseMemberF fuel rest
    | _ => none
end

/-- `JSON.parse` on char lists: a full parse, rejecting any non-whitespace
trailing content exactly as JavaScript does. -/
def jsonParseL (l : List Char) : Option Json :=
  match parseValF (l.length + 1) l with
  | some (v, rest) => if dropWsJson rest = [] then some v else none
  | none => none

/-- `JSON.parse` on strings. -/
def jsonParse (s : String) : Option Json :=
  jsonParseL s.data

/-! ## The extractor `extractJSON`

Faithful to src/unnamed/part_000. The schema argument is the caller-supplied
Zod schema, modelled as a validator `Json → Except String Json` (Zod's
`.parse` may transform the value, so the validator returns a value); a
validator failure corresponds to a thrown `ZodError` whose formatted issue
list is the returned message. The `try`-block of the source can end in three
distinct exceptional ways, which the `catch`-block treats differently, so the
intermediate result is tagged. -/

/-- How the direct-parse attempt (the `try` block) ended. `zod` is a thrown
`ZodError` (schema validation failure); `plain` is any other thrown error —
a `JSON.parse` syntax error or the array-shape error of source lines 28–32.
The engine-specific text of `JSON.parse` syntax errors is abstracted to
`"SyntaxError"`. -/
inductive TryErr where
  | zod (msg : String)
  | plain (msg : String)

/-- Unwrap `[x]` to `x` (source lines 22–25); anything else is unchanged. -/
def unwrapSingle : Json → Json
  | .arr (.cons v .nil) => v
  | v => v

/-- The `try` block of `extractJSON` (source lines 15–39): parse the cleaned
text, unwrap a singleton array, reject a remaining array with the
count-naming error, then validate. -/
def extractDirect (cleaned : List Char) (schema : Option (Json → Except String Json)) :
    Except TryErr Json :=
  match jsonParseL (trimL cleaned) with
  | none => .error (.plain "SyntaxError")
  | some parsed =>
    match unwrapSingle parsed with
    | .arr xs =>
      .error (.plain ("JSON validation failed: expected object, received array with "
        ++ toString xs.length ++ " elements"))
    | p =>
      match schema with
      | none => .ok p
      | some validate =>
        match validate p with
        | .ok r => .ok r
        | .error m => .error (.zod m)

/-- The regex match `cleaned.match(/\{[\s\S]*\}/)` (source line 49): the
substring from the first `{` to the last `}`, when the latter follows the
former. -/
def braceSlice (l : List Char) : Option (List Char) :=
  match l.dropWhile (fun c => !(c = '{')) with
  | [] => none
  | c :: cs =>
    -- the slice runs from this first `{` to the last `}` after it; when no
    -- `}` follows, the regex does not match at all
    match ((c :: cs).reverse.dropWhile (fun d => !(d = '}'))).reverse with
    | [] => none
    | d :: ds => some (d :: ds)

/-- First 500 characters of the original text, as used in the error messages
(`text.substring(0, 500)`). -/
def first500 (s : String) : String := String.mk (s.data.take 500)

/-- `extractJSON(text, schema?)` — the whole function of
src/unnamed/part_000, returning `Except` in place of throw. -/
def extractJSON (text : String) (schema : Option (Json → Except String Json)) :
    Except String Json :=
  match extractDirect (cleanText text.data) schema with
  | .ok v => .ok v
  | .error (.zod m) => .error ("JSON validation failed: " ++ m)
  | .error (.plain _) =>
    match braceSlice (cleanText text.data) with
    | some sub =>
      (match jsonParseL sub with
       | none =>
         .error ("JSON extraction failed: SyntaxError\n\nOriginal text:\n"
           ++ first500 text ++ "...")
       | some parsed =>
         match schema with
         | none => .ok parsed
         | some validate =>
           match validate parsed with
           | .ok r => .ok r
           | .error m => .error ("JSON validation failed: " ++ m))
    | none =>
      .error ("No valid JSON found in response:\n" ++ first500 text ++ "...")

/-! ## Classes of values on which extraction inverts rendering

The wrapper-stripping rewrites operate on the raw text with no awareness of
JSON string boundaries, so rendering only round-trips when the rendered text
contains none of the rewrite targets. `safeChar` additionally excludes the
characters that `JSON.stringify` escapes, keeping string literals verbatim. -/

/-- A character rendered verbatim by `JSON.stringify`: not a quote, not a
backslash, not a control character. -/
def safeChar (c : Char) : Bool :=
  !(c = '"') && !(c = '\\') && !(decide (c.toNat < 32))

mutual
def safeVal : Json → Bool
  | .null => true
  | .bool _ => true
  | .num _ => true
  | .str s => s.data.all safeChar
  | .arr vs => safeList vs
  | .obj fs => safeFields fs

def safeList : JsonList → Bool
  | .nil => true
  | .cons v vs => safeVal v && safeList vs

def safeFields : JsonFields → Bool
  | .nil => true
  | .cons k v fs => k.data.all safeChar && safeVal v && safeFields fs
end

/-- Is there a comma followed by optional whitespace and a closing brace or
bracket anywhere (the target of rewrite 5)? -/
def hasCommaClose : List Char → Bool
  | [] => false
  | c :: cs => (c = ',' && trailingCommaHere cs) || hasCommaClose cs

/-- The text contains none of the sequences targeted by the five
wrapper-stripping rewrites, so `cleanText` leaves it unchanged. -/
def cleanNeutral (l : List Char) : Bool :=
  !containsSeq fencePat l && !containsSeq ['/', '/'] l &&
    !containsSeq ['/', '*'] l && !hasCommaClose l

/- Fuel needed by `parseValF` to parse the rendering of a value. -/
mutual
def needVal : Json → Nat
  | .null => 1
  | .bool _ => 1
  | .num _ => 1
  | .str _ => 1
  | .arr .nil => 1
  | .arr (.cons v vs) => 1 + max (needVal v) (needTailA vs)
  | .obj .nil => 1
  | .obj (.cons _ v fs) => 1 + (1 + max (needVal v) (needTailO fs))

def needTailA : JsonList → Nat
  | .nil => 1
  | .cons v vs => 1 + max (needVal v) (needTailA vs)

def needTailO : JsonFields → Nat
  | .nil => 1
  | .cons _ v fs => 1 + (1 + max (needVal v) (needTailO fs))
end

/-- Does the list start with a decimal digit? (Negated; used to delimit
rendered numbers from what follows.) -/
def headNotDigit : List Char → Bool
  | [] => true
  | c :: _ => !isDigitCh c

/-! ## The cleaning passes fix texts free of their target sequences -/

theorem leadsWith_append_left (p q l : List Char) (h : leadsWith (p ++ q) l = true) :
    leadsWith p l = true := by
  induction p generalizing l with
  | nil => rfl
  | cons a ps ih =>
    cases l with
    | nil => simp [leadsWith] at h
    | cons c cs =>
      simp only [List.cons_append, leadsWith, Bool.and_eq_true] at h ⊢
      exact ⟨h.1, ih cs h.2⟩

theorem containsSeq_cons_false {pat : List Char} {c : Char} {cs : List Char}
    (h : containsSeq pat (c :: cs) = false) :
    leadsWith pat (c :: cs) = false ∧ containsSeq pat cs = false := by
  simpa [containsSeq, Bool.or_eq_false_iff] using h

theorem stripFenceJsonF_id (fuel : Nat) (l : List Char)
    (h : containsSeq fencePat l = false) : stripFenceJsonF fuel l = l := by
  induction fuel generalizing l with
  | zero => rfl
  | succ fuel ih =>
    cases l with
    | nil => rfl
    | cons c cs =>
      obtain ⟨h1, h2⟩ := containsSeq_cons_false h
      have h3 : leadsWith fenceJsonPat (c :: cs) = false := by
        cases h4 : leadsWith fenceJsonPat (c :: cs) with
        | false => rfl
        | true =>
          have : leadsWith fencePat (c :: cs) = true :=
            leadsWith_append_left fencePat ['j', 's', 'o', 'n'] (c :: cs) h4
          rw [this] at h1
          exact h1
      simp [stripFenceJsonF, h3, ih cs h2]

theorem stripFenceF_id (fuel : Nat) (l : List Char)
    (h : containsSeq fencePat l = false) : stripFenceF fuel l = l := by
  induction fuel generalizing l with
  | zero => rfl
  | succ fuel ih =>
    cases l with
    | nil => rfl
    | cons c cs =>
      obtain ⟨h1, h2⟩ := containsSeq_cons_false h
      simp [stripFenceF, h1, ih cs h2]

theorem stripLineCommentsF_id (fuel : Nat) (l : List Char)
    (h : containsSeq ['/', '/'] l = false) : stripLineCommentsF fuel l = l := by
  induction fuel generalizing l with
  | zero => rfl
  | succ fuel ih =>
    cases l with
    | nil => rfl
    | cons c cs =>
      obtain ⟨h1, h2⟩ := containsSeq_cons_false h
      simp [stripLineCommentsF, h1, ih cs h2]

theorem stripBlockCommentsF_id (fuel : Nat) (l : List Char)
    (h : containsSeq ['/', '*'] l = false) : stripBlockCommentsF fuel l = l := by
  induction fuel generalizing l with
  | zero => rfl
  | succ fuel ih =>
    cases l with
    | nil => rfl
    | cons c cs =>
      obtain ⟨h1, h2⟩ := containsSeq_cons_false h
      simp [stripBlockCommentsF, h1, ih cs h2]

theorem stripTrailingCommasF_id (fuel : Nat) (l : List Char)
    (h : hasCommaClose l = false) : stripTrailingCommasF fuel l = l := by
  induction fuel generalizing l with
  | zero => rfl
  | succ fuel ih =>
    cases l with
    | nil => rfl
    | cons c cs =>
      have h' : (c = ',' && trailingCommaHere cs) = false ∧ hasCommaClose cs = false := by
        simpa [hasCommaClose, Bool.or_eq_false_iff] using h
      simp [stripTrailingCommasF, h'.1, ih cs h'.2]

/-- On a text containing none of the rewrite targets, the whole cleaning
pipeline is the identity. -/
theorem cleanText_id (l : List Char) (h : cleanNeutral l = true) : cleanText l = l := by
  have h' := h
  simp only [cleanNeutral, Bool.and_eq_true, Bool.not_eq_true'] at h'
  obtain ⟨⟨⟨h1, h2⟩, h3⟩, h4⟩ := h'
  unfold cleanText stripFenceJson stripFence stripLineComments stripBlockComments
    stripTrailingCommas
  rw [stripFenceJsonF_id _ _ h1, stripFenceF_id _ _ h1, stripLineCommentsF_id _ _ h2,
    stripBlockCommentsF_id _ _ h3, stripTrailingCommasF_id _ _ h4]

/-! ## Trimming, digits, string literals -/

theorem dropWsJs_cons_of_not (c : Char) (cs : List Char) (h : isWsJs c = false) :
    dropWsJs (c :: cs) = c :: cs := by
  simp [dropWsJs, h]

/-- `trim` is the identity on a text whose first and last characters are not
whitespace. -/
theorem trimL_id (c d : Char) (m : List Char) (hc : isWsJs c = false)
    (hd : isWsJs d = false) : trimL (c :: (m ++ [d])) = c :: (m ++ [d]) := by
  unfold trimL
  rw [dropWsJs_cons_of_not c _ hc]
  have : (c :: (m ++ [d])).reverse = d :: (m.reverse ++ [c]) := by
    simp
  rw [this, dropWsJs_cons_of_not d _ hd, ← this, List.reverse_reverse]

theorem toNat_ofNat_digit (d : Nat) (h : d < 10) :
    (Char.ofNat (48 + d)).toNat = 48 + d := by
  interval_cases d <;> decide

theorem isDigitCh_ofNat_digit (d : Nat) (h : d < 10) :
    isDigitCh (Char.ofNat (48 + d)) = true := by
  interval_cases d <;> decide

theorem digitsVal_append_digit (ds : List Char) (c : Char) :
    digitsVal (ds ++ [c]) = digitsVal ds * 10 + (c.toNat - 48) := by
  simp [digitsVal, List.foldl_append]

theorem natCharsF_all_digits (fuel : Nat) : ∀ n, (natCharsF fuel n).all isDigitCh = true := by
  induction fuel with
  | zero => intro n; rfl
  | succ fuel ih =>
    intro n
    unfold natCharsF
    by_cases h : n = 0
    · simp [h]
    · simp only [h, if_false, List.all_append, Bool.and_eq_true]
      exact ⟨ih _, by simpa using isDigitCh_ofNat_digit (n % 10) (Nat.mod_lt n (by decide))⟩

theorem digitsVal_natCharsF (fuel : Nat) : ∀ n, n ≤ fuel → digitsVal (natCharsF fuel n) = n := by
  induction fuel with
  | zero =>
    intro n h
    have : n = 0 := Nat.le_zero.mp h
    subst this
    rfl
  | succ fuel ih =>
    intro n h
    unfold natCharsF
    by_cases h0 : n = 0
    · simp [h0, digitsVal]
    · have hdiv : n / 10 ≤ fuel := by
        have := Nat.div_lt_self (Nat.pos_of_ne_zero h0) (by decide : 1 < 10)
        omega
      simp only [h0, if_false]
      rw [digitsVal_append_digit, ih _ hdiv, toNat_ofNat_digit (n % 10) (Nat.mod_lt n (by decide))]
      omega

theorem digitsVal_natChars (n : Nat) : digitsVal (natChars n) = n :=
  digitsVal_natCharsF n n (Nat.le_refl n)

theorem natChars_all_digits (n : Nat) : (natChars n).all isDigitCh = true :=
  natCharsF_all_digits n n

theorem natChars_ne_nil (n : Nat) (h : n ≠ 0) : natChars n ≠ [] := by
  unfold natChars
  cases n with
  | zero => exact absurd rfl h
  | succ m =>
    unfold natCharsF
    simp

theorem spanDigits_append (ds rest : List Char) (hds : ds.all isDigitCh = true)
    (hrest : headNotDigit rest = true) : spanDigits (ds ++ rest) = (ds, rest) := by
  induction ds with
  | nil =>
    cases rest with
    | nil => rfl
    | cons c cs =>
      have : isDigitCh c = false := by simpa [headNotDigit] using hrest
      simp [spanDigits, this]
  | cons c cs ih =>
    simp only [List.all_cons, Bool.and_eq_true] at hds
    simp [spanDigits, hds.1, ih hds.2]

theorem safeChar_props {c : Char} (h : safeChar c = true) :
    ¬(c = '"') ∧ ¬(c = '\\') ∧ ¬(c.toNat < 32) := by
  simp only [safeChar, Bool.and_eq_true, Bool.not_eq_true', decide_eq_false_iff_not] at h
  exact ⟨h.1.1, h.1.2, h.2⟩

theorem escChar_safe (c : Char) (h : safeChar c = true) : escChar c = [c] := by
  obtain ⟨h1, h2, h3⟩ := safeChar_props h
  unfold escChar
  split_ifs with g1 g2 g3 g4 g5
  · subst g1; exact absurd (by decide) h3
  · subst g2; exact absurd (by decide) h3
  · subst g3; exact absurd (by decide) h3
  · subst g4; exact absurd (by decide) h3
  · subst g5; exact absurd (by decide) h3
  · rfl

theorem escapeList_safe (cs : List Char) (h : cs.all safeChar = true) :
    escapeList cs = cs := by
  induction cs with
  | nil => rfl
  | cons c cs ih =>
    simp only [List.all_cons, Bool.and_eq_true] at h
    simp [escapeList, escChar_safe c h.1, ih h.2]

/-- Round-trip for string literal bodies made of safe characters. -/
theorem parseStrF_append (cs : List Char) (hsafe : cs.all safeChar = true) :
    ∀ fuel rest, cs.length < fuel →
      parseStrF fuel (cs ++ '"' :: rest) = some (cs, rest) := by
  induction cs with
  | nil =>
    intro fuel rest hf
    cases fuel with
    | zero => omega
    | succ f => simp [parseStrF]
  | cons c cs ih =>
    intro fuel rest hf
    simp only [List.all_cons, Bool.and_eq_true] at hsafe
    obtain ⟨h1, h2, _⟩ := safeChar_props hsafe.1
    cases fuel with
    | zero => omega
    | succ f =>
      have : cs.length < f := by simpa using Nat.lt_of_succ_lt_succ hf
      simp [parseStrF, h1, h2, ih hsafe.2 f rest this]

theorem parseStrChars_append (cs rest : List Char) (hsafe : cs.all safeChar = true) :
    parseStrChars (cs ++ '"' :: rest) = some (cs, rest) := by
  unfold parseStrChars
  apply parseStrF_append cs hsafe
  simp

/-! ## The parser inverts the renderer -/

theorem mk_data (s : String) : String.mk s.data = s := by
  cases s
  rfl

theorem dropWsJson_cons_of_not (c : Char) (cs : List Char) (h : isWsJson c = false) :
    dropWsJson (c :: cs) = c :: cs := by
  simp [dropWsJson, h]

theorem digit_cases {d : Char} (h : isDigitCh d = true) :
    d = '0' ∨ d = '1' ∨ d = '2' ∨ d = '3' ∨ d = '4' ∨ d = '5' ∨ d = '6' ∨ d = '7' ∨
      d = '8' ∨ d = '9' := by
  simpa [isDigitCh, or_assoc] using h

/-- Everything needed to route a digit-headed text through `parseValF`'s
dispatch chain into its number branch. -/
theorem digit_dispatch {d : Char} (cs : List Char) (h : isDigitCh d = true) :
    isWsJson d = false ∧
      leadsWith ['n', 'u', 'l', 'l'] (d :: cs) = false ∧
      leadsWith ['t', 'r', 'u', 'e'] (d :: cs) = false ∧
      leadsWith ['f', 'a', 'l', 's', 'e'] (d :: cs) = false ∧
      ¬(d = '"') ∧ ¬(d = '[') ∧ ¬(d = '{') ∧ ¬(d = '-') := by
  rcases digit_cases h with rfl | rfl | rfl | rfl | rfl | rfl | rfl | rfl | rfl | rfl <;>
    exact ⟨by decide, by simp [leadsWith], by simp [leadsWith], by simp [leadsWith],
      by decide, by decide, by decide, by decide⟩

/-- A character that can head a rendered value: not whitespace and not a
closing bracket. -/
def goodHead (c : Char) : Bool := !isWsJson c && !(c = ']') && !(c = '}')

theorem natChars_head (n : Nat) (h : n ≠ 0) :
    ∃ d ds, natChars n = d :: ds ∧ isDigitCh d = true := by
  cases hE : natChars n with
  | nil => exact absurd hE (natChars_ne_nil n h)
  | cons d ds =>
    have hall := natChars_all_digits n
    rw [hE] at hall
    simp only [List.all_cons, Bool.and_eq_true] at hall
    exact ⟨d, ds, rfl, hall.1⟩

theorem digit_goodHead {d : Char} (h : isDigitCh d = true) : goodHead d = true := by
  rcases digit_cases h with rfl | rfl | rfl | rfl | rfl | rfl | rfl | rfl | rfl | rfl <;> decide

/-- Every rendered value starts with a character that is neither whitespace
nor a closing bracket. -/
theorem renderJson_head (v : Json) :
    ∃ c t, renderJson v = c :: t ∧ goodHead c = true := by
  cases v with
  | null => exact ⟨'n', _, rfl, by decide⟩
  | bool b =>
    cases b with
    | false => exact ⟨'f', _, rfl, by decide⟩
    | true => exact ⟨'t', _, rfl, by decide⟩
  | num n =>
    show ∃ c t, intChars n = c :: t ∧ goodHead c = true
    unfold intChars
    by_cases hneg : n < 0
    · exact ⟨'-', natChars n.natAbs, by simp [hneg], by decide⟩
    · by_cases h0 : n = 0
      · exact ⟨'0', [], by simp [hneg, h0], by decide⟩
      · obtain ⟨d, ds, hE, hd⟩ := natChars_head n.toNat (by omega)
        exact ⟨d, ds, by simp [hneg, h0, hE], digit_goodHead hd⟩
  | str s => exact ⟨'"', _, rfl, by decide⟩
  | arr vs =>
    cases vs with
    | nil => exact ⟨'[', _, rfl, by decide⟩
    | cons v vs => exact ⟨'[', _, rfl, by decide⟩
  | obj fs =>
    cases fs with
    | nil => exact ⟨'{', _, rfl, by decide⟩
    | cons k v fs => exact ⟨'{', _, rfl, by decide⟩

theorem goodHead_props {c : Char} (h : goodHead c = true) :
    isWsJson c = false ∧ ¬(c = ']') ∧ ¬(c = '}') := by
  simp only [goodHead, Bool.and_eq_true, Bool.not_eq_true', decide_eq_false_iff_not] at h
  exact ⟨h.1.1, h.1.2, h.2⟩

theorem headNotDigit_renderArrTail (vs : JsonList) (rest : List Char) :
    headNotDigit (renderArrTail vs ++ rest) = true := by
  cases vs <;> simp [renderArrTail, headNotDigit] <;> decide

theorem headNotDigit_renderObjTail (fs : JsonFields) (rest : List Char) :
    headNotDigit (renderObjTail fs ++ rest) = true := by
  cases fs <;> simp [renderObjTail, headNotDigit] <;> decide

theorem one_le_needVal (v : Json) : 1 ≤ needVal v := by
  cases v with
  | arr vs => cases vs <;> simp [needVal]
  | obj fs => cases fs <;> simp [needVal]
  | _ => simp [needVal]

theorem one_le_needTailA (vs : JsonList) : 1 ≤ needTailA vs := by
  cases vs <;> simp [needTailA]

theorem one_le_needTailO (fs : JsonFields) : 1 ≤ needTailO fs := by
  cases fs <;> simp [needTailO]

theorem needVal_arr_cons (v : Json) (vs : JsonList) :
    needVal (.arr (.cons v vs)) = 1 + max (needVal v) (needTailA vs) := rfl

theorem needVal_obj_cons (k : String) (v : Json) (fs : JsonFields) :
    needVal (.obj (.cons k v fs)) = 1 + (1 + max (needVal v) (needTailO fs)) := rfl

theorem needTailA_cons (v : Json) (vs : JsonList) :
    needTailA (.cons v vs) = 1 + max (needVal v) (needTailA vs) := rfl

theorem needTailO_cons (k : String) (v : Json) (fs : JsonFields) :
    needTailO (.cons k v fs) = 1 + (1 + max (needVal v) (needTailO fs)) := rfl

/-- `parseValF` on `[` followed by a non-`]` head takes the nonempty-array
branch. -/
theorem parseValF_succ_arr (f : Nat) (c0 : Char) (t : List Char)
    (hGw : isWsJson c0 = false) (hGb : ¬(c0 = ']')) :
    parseValF (f + 1) ('[' :: c0 :: t) =
      (match parseValF f (c0 :: t) with
       | some (v, rest1) =>
         match parseArrTailF f rest1 with
         | some (vs, rest2) => some (.arr (.cons v vs), rest2)
         | none => none
       | none => none) := by
  have houter : dropWsJson ('[' :: c0 :: t) = '[' :: c0 :: t :=
    dropWsJson_cons_of_not _ _ (by decide)
  have hdrop : dropWsJson (c0 :: t) = c0 :: t := dropWsJson_cons_of_not _ _ hGw
  simp [parseValF, leadsWith, houter, hdrop, headIs, hGb]

/-- `parseValF` on `{` followed by a non-`}` head takes the nonempty-object
branch. -/
theorem parseValF_succ_obj (f : Nat) (c0 : Char) (t : List Char)
    (hGw : isWsJson c0 = false) (hGb : ¬(c0 = '}')) :
    parseValF (f + 1) ('{' :: c0 :: t) =
      (match parseMemberF f (c0 :: t) with
       | some (fs, rest1) => some (.obj fs, rest1)
       | none => none) := by
  have houter : dropWsJson ('{' :: c0 :: t) = '{' :: c0 :: t :=
    dropWsJson_cons_of_not _ _ (by decide)
  have hdrop : dropWsJson (c0 :: t) = c0 :: t := dropWsJson_cons_of_not _ _ hGw
  simp [parseValF, leadsWith, houter, hdrop, headIs, hGb]

/-! The four parsers invert the four renderers on safe values. -/

mutual

theorem rt_val : ∀ (v : Json) (fuel : Nat) (rest : List Char), needVal v ≤ fuel →
    safeVal v = true → headNotDigit rest = true →
    parseValF fuel (renderJson v ++ rest) = some (v, rest)
  | .null, fuel, rest, hfuel, _, _ => by
    cases fuel with
    | zero => simp [needVal] at hfuel
    | succ f =>
      show parseValF (f + 1) (['n', 'u', 'l', 'l'] ++ rest) = _
      simp [parseValF, dropWsJson, isWsJson, leadsWith]
  | .bool true, fuel, rest, hfuel, _, _ => by
    cases fuel with
    | zero => simp [needVal] at hfuel
    | succ f =>
      show parseValF (f + 1) (['t', 'r', 'u', 'e'] ++ rest) = _
      simp [parseValF, dropWsJson, isWsJson, leadsWith]
  | .bool false, fuel, rest, hfuel, _, _ => by
    cases fuel with
    | zero => simp [needVal] at hfuel
    | succ f =>
      show parseValF (f + 1) (['f', 'a', 'l', 's', 'e'] ++ rest) = _
      simp [parseValF, dropWsJson, isWsJson, leadsWith]
  | .str s, fuel, rest, hfuel, hsafe, _ => by
    cases fuel with
    | zero => simp [needVal] at hfuel
    | succ f =>
      have hs : s.data.all safeChar = true := by simpa [safeVal] using hsafe
      show parseValF (f + 1) (renderStr s ++ rest) = _
      rw [renderStr, escapeList_safe _ hs]
      simp only [List.cons_append, List.append_assoc, List.singleton_append]
      simp [parseValF, dropWsJson, isWsJson, leadsWith,
        parseStrChars_append s.data rest hs, mk_data]
  | .num n, fuel, rest, hfuel, _, hrest => by
    cases fuel with
    | zero => simp [needVal] at hfuel
    | succ f =>
      show parseValF (f + 1) (intChars n ++ rest) = _
      by_cases hneg : n < 0
      · have habs : n.natAbs ≠ 0 := by omega
        obtain ⟨d, ds, hE, hd⟩ := natChars_head n.natAbs habs
        have hall : (natChars n.natAbs).all isDigitCh = true := natChars_all_digits _
        have hspan : spanDigits (natChars n.natAbs ++ rest) = (natChars n.natAbs, rest) :=
          spanDigits_append _ rest hall hrest
        rw [hE] at hspan
        simp only [List.cons_append] at hspan
        rw [intChars, if_pos hneg]
        have hsplit : ('-' :: natChars n.natAbs) ++ rest = '-' :: (d :: ds ++ rest) := by
          rw [hE]; simp
        rw [hsplit]
        have hval : digitsVal (d :: ds) = n.natAbs := by
          rw [← hE]; exact digitsVal_natChars _
        simp [parseValF, dropWsJson, isWsJson, leadsWith, hspan, hval]
        rw [abs_of_nonpos (by omega : n ≤ 0)]
        simp
      · by_cases h0 : n = 0
        · subst h0
          show parseValF (f + 1) (['0'] ++ rest) = _
          have hspan : spanDigits (['0'] ++ rest) = (['0'], rest) :=
            spanDigits_append ['0'] rest (by decide) hrest
          simp only [List.singleton_append] at hspan
          simp [parseValF, dropWsJson, isWsJson, leadsWith, isDigitCh, hspan, digitsVal]
        · have ht : n.toNat ≠ 0 := by omega
          obtain ⟨d, ds, hE, hd⟩ := natChars_head n.toNat ht
          have hall : (natChars n.toNat).all isDigitCh = true := natChars_all_digits _
          have hspan : spanDigits (natChars n.toNat ++ rest) = (natChars n.toNat, rest) :=
            spanDigits_append _ rest hall hrest
          rw [hE] at hspan
          have hval : digitsVal (d :: ds) = n.toNat := by
            rw [← hE]; exact digitsVal_natChars _
          obtain ⟨hw, hn1, hn2, hn3, hq, hlb, hob, hmi⟩ := digit_dispatch (ds ++ rest) hd
          rw [intChars, if_neg hneg, if_neg h0, hE]
          have hsplit : (d :: ds) ++ rest = d :: (ds ++ rest) := by simp
          rw [hsplit]
          simp [parseValF, dropWsJson_cons_of_not _ _ hw, hn1, hn2, hn3, hq, hlb, hob, hmi,
            hd]
          rw [show d :: (ds ++ rest) = (d :: ds) ++ rest by simp, hspan]
          simp [hval, Int.toNat_of_nonneg (by omega : (0 : Int) ≤ n)]
  | .arr .nil, fuel, rest, hfuel, _, _ => by
    cases fuel with
    | zero => simp [needVal] at hfuel
    | succ f =>
      show parseValF (f + 1) (['[', ']'] ++ rest) = _
      simp [parseValF, dropWsJson, isWsJson, leadsWith, headIs]
  | .arr (.cons v vs), fuel, rest, hfuel, hsafe, hrest => by
    cases fuel with
    | zero => simp [needVal_arr_cons] at hfuel
    | succ f =>
      have hm : max (needVal v) (needTailA vs) ≤ f := by
        rw [needVal_arr_cons] at hfuel; omega
      have hv : needVal v ≤ f := le_trans (Nat.le_max_left _ _) hm
      have hvs : needTailA vs ≤ f := le_trans (Nat.le_max_right _ _) hm
      have hsv : safeVal v = true ∧ safeList vs = true := by
        simpa [safeVal, safeList] using hsafe
      obtain ⟨c0, t, hR, hG⟩ := renderJson_head v
      obtain ⟨hGw, hGb, hGc⟩ := goodHead_props hG
      have hinner : parseValF f (renderJson v ++ (renderArrTail vs ++ rest)) =
          some (v, renderArrTail vs ++ rest) :=
        rt_val v f _ hv hsv.1 (headNotDigit_renderArrTail vs rest)
      have htail : parseArrTailF f (renderArrTail vs ++ rest) = some (vs, rest) :=
        rt_arrTail vs f rest hvs hsv.2 hrest
      rw [hR] at hinner
      simp only [List.cons_append, List.append_assoc] at hinner
      show parseValF (f + 1) (('[' :: (renderJson v ++ renderArrTail vs)) ++ rest) = _
      rw [hR]
      simp only [List.cons_append, List.append_assoc]
      rw [parseValF_succ_arr f c0 _ hGw hGb]
      simp [hinner, htail]
  | .obj .nil, fuel, rest, hfuel, _, _ => by
    cases fuel with
    | zero => simp [needVal] at hfuel
    | succ f =>
      show parseValF (f + 1) (['{', '}'] ++ rest) = _
      simp [parseValF, dropWsJson, isWsJson, leadsWith, headIs]
  | .obj (.cons k v fs), fuel, rest, hfuel, hsafe, hrest => by
    cases fuel with
    | zero => simp [needVal_obj_cons] at hfuel
    | succ f =>
      have hm : 1 + max (needVal v) (needTailO fs) ≤ f := by
        rw [needVal_obj_cons] at hfuel; omega
      have hsv : k.data.all safeChar = true ∧ safeVal v = true ∧ safeFields fs = true := by
        simpa [safeVal, safeFields, and_assoc] using hsafe
      have hmem : parseMemberF f (renderStr k ++ ':' :: (renderJson v ++ renderObjTail fs)
          ++ rest) = some (.cons k v fs, rest) :=
        rt_member k v fs f rest hm hsv.1 hsv.2.1 hsv.2.2 hrest
      show parseValF (f + 1)
        (('{' :: (renderStr k ++ ':' :: (renderJson v ++ renderObjTail fs))) ++ rest) = _
      rw [renderStr] at hmem ⊢
      simp only [List.cons_append, List.append_assoc, List.singleton_append,
        List.nil_append] at hmem ⊢
      rw [parseValF_succ_obj f '"' _ (by decide) (by decide)]
      simp [hmem]
termination_by v _ _ _ _ _ => needVal v
decreasing_by
  all_goals first
    | (simp only [needVal_arr_cons, needVal_obj_cons, needTailA_cons, needTailO_cons]; omega)
    | omega

theorem rt_arrTail : ∀ (vs : JsonList) (fuel : Nat) (rest : List Char),
    needTailA vs ≤ fuel → safeList vs = true → headNotDigit rest = true →
    parseArrTailF fuel (renderArrTail vs ++ rest) = some (vs, rest)
  | .nil, fuel, rest, hfuel, _, _ => by
    cases fuel with
    | zero => simp [needTailA] at hfuel
    | succ f =>
      show parseArrTailF (f + 1) ([']'] ++ rest) = _
      simp [parseArrTailF, dropWsJson, isWsJson]
  | .cons v vs, fuel, rest, hfuel, hsafe, hrest => by
    cases fuel with
    | zero => simp [needTailA_cons] at hfuel
    | succ f =>
      have hm : max (needVal v) (needTailA vs) ≤ f := by
        rw [needTailA_cons] at hfuel; omega
      have hv : needVal v ≤ f := le_trans (Nat.le_max_left _ _) hm
      have hvs : needTailA vs ≤ f := le_trans (Nat.le_max_right _ _) hm
      have hsv : safeVal v = true ∧ safeList vs = true := by
        simpa [safeList] using hsafe
      have hinner : parseValF f (renderJson v ++ (renderArrTail vs ++ rest)) =
          some (v, renderArrTail vs ++ rest) :=
        rt_val v f _ hv hsv.1 (headNotDigit_renderArrTail vs rest)
      have htail : parseArrTailF f (renderArrTail vs ++ rest) = some (vs, rest) :=
        rt_arrTail vs f rest hvs hsv.2 hrest
      show parseArrTailF (f + 1) ((',' :: (renderJson v ++ renderArrTail vs)) ++ rest) = _
      simp only [List.cons_append, List.append_assoc]
      simp only [List.cons_append, List.append_assoc] at hinner
      simp [parseArrTailF, dropWsJson, isWsJson, hinner, htail]
termination_by vs _ _ _ _ _ => needTailA vs
decreasing_by
  all_goals first
    | (simp only [needVal_arr_cons, needVal_obj_cons, needTailA_cons, needTailO_cons]; omega)
    | omega

theorem rt_member (k : String) (v : Json) (fs : JsonFields) (fuel : Nat) (rest : List Char)
    (hfuel : 1 + max (needVal v) (needTailO fs) ≤ fuel)
    (hsk : k.data.all safeChar = true) (hsv : safeVal v = true)
    (hsf : safeFields fs = true) (hrest : headNotDigit rest = true) :
    parseMemberF fuel (renderStr k ++ ':' :: (renderJson v ++ renderObjTail fs) ++ rest) =
      some (.cons k v fs, rest) := by
  cases fuel with
  | zero => omega
  | succ f =>
    have hv : needVal v ≤ f := by
      have := Nat.le_max_left (needVal v) (needTailO fs); omega
    have hfs : needTailO fs ≤ f := by
      have := Nat.le_max_right (needVal v) (needTailO fs); omega
    have hinner : parseValF f (renderJson v ++ (renderObjTail fs ++ rest)) =
        some (v, renderObjTail fs ++ rest) :=
      rt_val v f _ hv hsv (headNotDigit_renderObjTail fs rest)
    have htail : parseObjTailF f (renderObjTail fs ++ rest) = some (fs, rest) :=
      rt_objTail fs f rest hfs hsf hrest
    have hstr : parseStrChars (k.data ++ '"' ::
        (':' :: (renderJson v ++ (renderObjTail fs ++ rest)))) =
        some (k.data, ':' :: (renderJson v ++ (renderObjTail fs ++ rest))) :=
      parseStrChars_append k.data _ hsk
    rw [renderStr, escapeList_safe _ hsk]
    simp only [List.cons_append, List.append_assoc, List.singleton_append]
    simp [parseMemberF, dropWsJson, isWsJson, hstr, mk_data, hinner, htail]
termination_by 1 + max (needVal v) (needTailO fs)
decreasing_by
  all_goals first
    | (simp only [needVal_arr_cons, needVal_obj_cons, needTailA_cons, needTailO_cons]; omega)
    | omega

theorem rt_objTail : ∀ (fs : JsonFields) (fuel : Nat) (rest : List Char),
    needTailO fs ≤ fuel → safeFields fs = true → headNotDigit rest = true →
    parseObjTailF fuel (renderObjTail fs ++ rest) = some (fs, rest)
  | .nil, fuel, rest, hfuel, _, _ => by
    cases fuel with
    | zero => simp [needTailO] at hfuel
    | succ f =>
      show parseObjTailF (f + 1) (['}'] ++ rest) = _
      simp [parseObjTailF, dropWsJson, isWsJson]
  | .cons k v fs, fuel, rest, hfuel, hsafe, hrest => by
    cases fuel with
    | zero => simp [needTailO_cons] at hfuel
    | succ f =>
      have hm : 1 + max (needVal v) (needTailO fs) ≤ f := by
        rw [needTailO_cons] at hfuel; omega
      have hsv : k.data.all safeChar = true ∧ safeVal v = true ∧ safeFields fs = true := by
        simpa [safeFields, and_assoc] using hsafe
      have hmem : parseMemberF f (renderStr k ++ ':' :: (renderJson v ++ renderObjTail fs)
          ++ rest) = some (.cons k v fs, rest) :=
        rt_member k v fs f rest hm hsv.1 hsv.2.1 hsv.2.2 hrest
      show parseObjTailF (f + 1) ((',' :: (renderStr k ++ ':' ::
        (renderJson v ++ renderObjTail fs))) ++ rest) = _
      simp only [List.cons_append, List.append_assoc]
      simp only [List.cons_append, List.append_assoc] at hmem
      simp [parseObjTailF, dropWsJson, isWsJson, hmem]
termination_by fs _ _ _ _ _ => needTailO fs
decreasing_by
  all_goals first
    | (simp only [needVal_arr_cons, needVal_obj_cons, needTailA_cons, needTailO_cons]; omega)
    | omega

end

/-! ## Extraction inverts rendering on safe, rewrite-neutral objects -/

theorem intChars_length_pos (n : Int) : 1 ≤ (intChars n).length := by
  unfold intChars
  split_ifs with h1 h2
  · simp
  · simp
  · obtain ⟨d, ds, hE, _⟩ := natChars_head n.toNat (by omega)
    simp [hE]

mutual

theorem needVal_le_len : ∀ (v : Json), needVal v ≤ (renderJson v).length
  | .null => by simp [needVal, renderJson]
  | .bool true => by simp [needVal, renderJson]
  | .bool false => by simp [needVal, renderJson]
  | .num n => by
    have h1 := intChars_length_pos n
    show needVal (.num n) ≤ (intChars n).length
    simp only [needVal]
    omega
  | .str s => by
    show needVal (.str s) ≤ (renderStr s).length
    simp [needVal, renderStr]
  | .arr .nil => by simp [needVal, renderJson]
  | .arr (.cons v vs) => by
    have h1 := needVal_le_len v
    have h2 := needTailA_le_len vs
    show 1 + max (needVal v) (needTailA vs) ≤
      ('[' :: (renderJson v ++ renderArrTail vs)).length
    simp only [List.length_cons, List.length_append]
    omega
  | .obj .nil => by simp [needVal, renderJson]
  | .obj (.cons k v fs) => by
    have h1 := needVal_le_len v
    have h2 := needTailO_le_len fs
    show 1 + (1 + max (needVal v) (needTailO fs)) ≤
      ('{' :: (renderStr k ++ ':' :: (renderJson v ++ renderObjTail fs))).length
    simp only [List.length_cons, List.length_append]
    omega

theorem needTailA_le_len : ∀ (vs : JsonList), needTailA vs ≤ (renderArrTail vs).length
  | .nil => by simp [needTailA, renderArrTail]
  | .cons v vs => by
    have h1 := needVal_le_len v
    have h2 := needTailA_le_len vs
    show 1 + max (needVal v) (needTailA vs) ≤
      (',' :: (renderJson v ++ renderArrTail vs)).length
    simp only [List.length_cons, List.length_append]
    omega

theorem needTailO_le_len : ∀ (fs : JsonFields), needTailO fs ≤ (renderObjTail fs).length
  | .nil => by simp [needTailO, renderObjTail]
  | .cons k v fs => by
    have h1 := needVal_le_len v
    have h2 := needTailO_le_len fs
    show 1 + (1 + max (needVal v) (needTailO fs)) ≤
      (',' :: (renderStr k ++ ':' :: (renderJson v ++ renderObjTail fs))).length
    simp only [List.length_cons, List.length_append]
    omega

end

theorem renderObjTail_last : ∀ (fs : JsonFields), ∃ m, renderObjTail fs = m ++ ['}']
  | .nil => ⟨[], rfl⟩
  | .cons k v fs => by
    obtain ⟨m, hm⟩ := renderObjTail_last fs
    exact ⟨',' :: (renderStr k ++ ':' :: (renderJson v ++ m)), by simp [renderObjTail, hm]⟩

/-- A rendered object literally has the shape `{ … }`. -/
theorem renderObj_shape (fs : JsonFields) :
    ∃ m, renderJson (.obj fs) = '{' :: (m ++ ['}']) := by
  cases fs with
  | nil => exact ⟨[], rfl⟩
  | cons k v fs =>
    obtain ⟨m, hm⟩ := renderObjTail_last fs
    refine ⟨renderStr k ++ ':' :: (renderJson v ++ m), ?_⟩
    show '{' :: (renderStr k ++ ':' :: (renderJson v ++ renderObjTail fs)) = _
    rw [hm]
    simp

/-- `JSON.parse` recovers a safe object value from its canonical rendering. -/
theorem jsonParseL_render_obj (fs : JsonFields) (hsafe : safeFields fs = true) :
    jsonParseL (renderJson (.obj fs)) = some (.obj fs) := by
  unfold jsonParseL
  have hfuel : needVal (.obj fs) ≤ (renderJson (.obj fs)).length + 1 := by
    have := needVal_le_len (.obj fs)
    omega
  have h := rt_val (.obj fs) ((renderJson (.obj fs)).length + 1) [] hfuel
    (by simpa [safeVal] using hsafe) (by rfl)
  rw [List.append_nil] at h
  rw [h]
  simp [dropWsJson]

/-- `extractJSON` recovers a safe, rewrite-neutral object value from its
canonical rendering, under any validator that accepts the value unchanged. -/
theorem extract_render_ok (fs : JsonFields) (validate : Json → Except String Json)
    (hsafe : safeFields fs = true)
    (hneutral : cleanNeutral (renderJson (.obj fs)) = true)
    (hval : validate (.obj fs) = .ok (.obj fs)) :
    extractJSON (String.mk (renderJson (.obj fs))) (some validate) = .ok (.obj fs) := by
  have hclean : cleanText (String.mk (renderJson (.obj fs))).data = renderJson (.obj fs) :=
    cleanText_id _ hneutral
  have htrim : trimL (renderJson (.obj fs)) = renderJson (.obj fs) := by
    obtain ⟨m, hm⟩ := renderObj_shape fs
    rw [hm]
    exact trimL_id '{' '}' m (by decide) (by decide)
  have hdirect : extractDirect (renderJson (.obj fs)) (some validate) = .ok (.obj fs) := by
    unfold extractDirect
    rw [htrim, jsonParseL_render_obj fs hsafe]
    simp [unwrapSingle, hval]
  unfold extractJSON
  rw [hclean, hdirect]


/-! ## The Model Invoker (src/llm/gemini-client.ts)

`callGemini` performs up to `maxRetries = 3` attempts against the remote
endpoint. Each attempt either resolves to a response (whose first candidate
and termination reason are then validated, source lines 105–116) or raises an
error with some message. The remote behaviour is an environment mapping the
attempt number to its outcome. The model returns, besides the result, the
number of attempts consumed and the list of back-off sleeps performed, so the
retry policy is observable. Timestamps and log lines are not modelled. -/

/-- `FinishReason` values of the Gemini SDK (a closed string enumeration). -/
inductive FinishReason where
  | STOP
  | MAX_TOKENS
  | SAFETY
  | RECITATION
  | LANGUAGE
  | OTHER
  | BLOCKLIST
  | PROHIBITED_CONTENT
  | SPII
  | MALFORMED_FUNCTION_CALL
  | FINISH_REASON_UNSPECIFIED
deriving DecidableEq

def frName : FinishReason → String
  | .STOP => "STOP"
  | .MAX_TOKENS => "MAX_TOKENS"
  | .SAFETY => "SAFETY"
  | .RECITATION => "RECITATION"
  | .LANGUAGE => "LANGUAGE"
  | .OTHER => "OTHER"
  | .BLOCKLIST => "BLOCKLIST"
  | .PROHIBITED_CONTENT => "PROHIBITED_CONTENT"
  | .SPII => "SPII"
  | .MALFORMED_FUNCTION_CALL => "MALFORMED_FUNCTION_CALL"
  | .FINISH_REASON_UNSPECIFIED => "FINISH_REASON_UNSPECIFIED"

structure TokenUsage where
  promptTokens : Nat
  outputTokens : Nat
  totalTokens : Nat
deriving DecidableEq

/-- One response candidate; only the termination reason matters to the
invoker (`finishReason` is optional in the SDK). -/
structure Candidate where
  finishReason : Option FinishReason
deriving DecidableEq

/-- A resolved remote response: candidate list, text and usage metadata. -/
structure RemoteResponse where
  candidates : List Candidate
  text : String
  usage : TokenUsage
deriving DecidableEq

/-- Outcome of one `model.generateContent` attempt: the promise resolves to a
response, or rejects with an error carrying a message. -/
inductive AttemptOutcome where
  | response (r : RemoteResponse)
  | raise (msg : String)

structure GeminiResponse where
  text : String
  tokenUsage : TokenUsage
deriving DecidableEq

/-- The `LLMError` thrown by `callGemini` (src/types/errors.ts lines 43–52):
it records the agent and the originating message. Its `message` is
`LLM agent '<agent>' failed: <cause>`. -/
structure LLMFailure where
  agent : String
  cause : String
deriving DecidableEq

def llmMessage (e : LLMFailure) : String :=
  "LLM agent '" ++ e.agent ++ "' failed: " ++ e.cause

/-- The error text of source line 112–115 for an abnormal termination
reason. -/
def stopMsg (fr : FinishReason) : String :=
  "Generation stopped with reason: " ++ frName fr ++
    ". This may indicate content policy violation or other issue."

/-- `isRetryableError` (source lines 158–173): message-based classification of
rate limits, quota, timeouts and transient network failures. -/
def isRetryableError (msg : String) : Bool :=
  containsStr (lowerStr msg) "rate limit" ||
    containsStr (lowerStr msg) "quota" ||
    containsStr (lowerStr msg) "timeout" ||
    containsStr (lowerStr msg) "econnreset" ||
    containsStr (lowerStr msg) "enotfound" ||
    containsStr (lowerStr msg) "503" ||
    containsStr (lowerStr msg) "429"

/-- Candidate/finish-reason validation of one resolved response (source lines
105–131): no candidate is an error; a present finish reason other than `STOP`
is an error naming the reason; otherwise the text and usage are returned. -/
def validateResponse (r : RemoteResponse) : Except String GeminiResponse :=
  match r.candidates.head? with
  | none => .error "No response candidate returned"
  | some c =>
    match c.finishReason with
    | some fr =>
      if fr = .STOP then .ok { text := r.text, tokenUsage := r.usage }
      else .error (stopMsg fr)
    | none => .ok { text := r.text, tokenUsage := r.usage }

def attemptResult (o : AttemptOutcome) : Except String GeminiResponse :=
  match o with
  | .response r => validateResponse r
  | .raise msg => .error msg

def maxRetries : Nat := 3

/-- `baseDelay` in milliseconds (source line 65). -/
def baseDelay : Nat := 1000

/-- Observable outcome of a whole `callGemini` call: the result, the number of
attempts consumed, and the back-off sleeps performed (in order, in ms). -/
structure CallTrace where
  result : Except LLMFailure GeminiResponse
  attempts : Nat
  sleeps : List Nat

/-- The retry loop of `callGemini` (source lines 67–152). `attempt` is the
1-based attempt counter; `fuel` is `maxRetries - attempt + 1`, making the
recursion structural. A retryable failure with attempts remaining sleeps
`baseDelay * 2 ^ (attempt - 1)` and retries; any other failure raises
`LLMError` at once. The `fuel = 0` case models the unreachable throw after
the loop (source line 155). -/
def callGeminiLoop (agent : String) (env : Nat → AttemptOutcome) :
    Nat → Nat → CallTrace
  | _, 0 => { result := .error { agent := agent, cause := "Max retries exceeded" },
              attempts := 0, sleeps := [] }
  | attempt, fuel + 1 =>
    match attemptResult (env attempt) with
    | .ok r => { result := .ok r, attempts := 1, sleeps := [] }
    | .error msg =>
      if attempt < maxRetries then
        if isRetryableError msg then
          let t := callGeminiLoop agent env (attempt + 1) fuel
          { result := t.result, attempts := t.attempts + 1,
            sleeps := baseDelay * 2 ^ (attempt - 1) :: t.sleeps }
        else { result := .error { agent := agent, cause := msg },
               attempts := 1, sleeps := [] }
      else { result := .error { agent := agent, cause := msg },
             attempts := 1, sleeps := [] }

/-- `callGemini(agent, prompt, options)` with the remote behaviour abstracted
into `env`. The prompt and options only influence the remote call itself, so
they live inside `env`. -/
def callGemini (agent : String) (env : Nat → AttemptOutcome) : CallTrace :=
  callGeminiLoop agent env 1 3

theorem stopMsg_not_retryable (fr : FinishReason) : isRetryableError (stopMsg fr) = false := by
  cases fr <;> decide

theorem stopMsg_contains_reason (fr : FinishReason) :
    containsStr (stopMsg fr) (frName fr) = true := by
  cases fr <;> decide

theorem noCandidate_not_retryable :
    isRetryableError "No response candidate returned" = false := by decide

/-! ## The Orchestrator (src/unnamed/part_001, `generateRecipe`)

The pipeline sequences Planning, the specialist fan-out and Synthesis. Each
phase performs "load prompt + render + `callGemini` + `extractJSON`"; that
composition is abstracted into an outcome environment, one outcome per call,
in line with the spec treating the Generation Service and Prompt Source as
opaque collaborators. Timestamps and durations are wall-clock values and are
abstracted to `Option Unit` fields recording only that the source set them.

The cooperative event loop interleaves the parallel specialists arbitrarily;
since `Promise.allSettled` returns results in input order, the log steps and
collected one-pagers are order-deterministic, and the model serialises the
specialists\' own debug events per specialist (a legal schedule). -/

structure SpecialistAssignment where
  name : String
  responsibilities : List String
  priority : Int
deriving DecidableEq

inductive Complexity where
  | simple
  | moderate
  | complex
deriving DecidableEq

/-- The TaskMap produced by Planning (src/types/validation.ts lines 19–26). -/
structure TaskMap where
  specialists : List SpecialistAssignment
  estimatedComplexity : Complexity
deriving DecidableEq

/-- A specialist contribution (src/types/validation.ts lines 29–33). -/
structure SpecialistOnePager where
  specialist : String
  «section» : String
  notes : String
deriving DecidableEq

/-- The synthesized Recipe. Only its identity matters to the orchestration
claims; the remaining schema fields (ingredients, instructions, …) never
influence control flow and are omitted. -/
structure Recipe where
  id : String
  title : String
deriving DecidableEq

/-- One ExecutionStep (src/types/index.ts). `timestamp` and `durationMs` are
wall-clock values, abstracted away; the remaining fields are modelled. -/
structure ExecutionStep where
  agent : String
  action : String
  success : Bool
  error : Option String
  tokenUsage : Option TokenUsage
deriving DecidableEq

/-- The ExecutionLog. `endTime` and `totalDurationMs` are wall-clock values;
the model records only whether the source assigned them (`some ()`). -/
structure ExecutionLog where
  steps : List ExecutionStep
  endTime : Option Unit
  totalDurationMs : Option Unit
deriving DecidableEq

/-- The error that `generateRecipe` propagates: an `AppError`-like value. Of
the source fields, the claims touch `message`, the
`context.attemptedSpecialists` list of the aggregate failure (source lines
226–233), and the `executionLog` property dynamically attached in the catch
block (source lines 349–351); `isOperational`, `httpCode` and `timestamp` are
never referenced by a claim and are omitted. In the model every thrown value
is of this type, matching the source where all throw sites produce `Error`
instances (so the `error instanceof Error` guard always attaches the log). -/
structure OrchError where
  message : String
  attemptedSpecialists : Option (List String)
  executionLog : Option ExecutionLog
deriving DecidableEq

structure RecipeResult where
  recipe : Recipe
  log : ExecutionLog
deriving DecidableEq

/-- The debug events of src/types/debug-events.ts, with payloads reduced to
what identifies the event (timestamps, request ids, token counts and text
previews abstracted). -/
inductive DebugEvent where
  | phaseStart (phase : String)
  | llmRequest (agent : String)
  | llmResponse (agent : String)
  | dataParsed (agent : String) (dataType : String)
  | phaseComplete (phase : String) (success : Bool)
  | agentError (agent : String) (error : String)
  | recipeComplete
  | recipeError (error : String)
deriving DecidableEq

/-- Per-call outcomes of the three phases: the result of the composed
"invoke + extract" for the planning call, for the `i`-th specialist
assignment, and for the synthesis call. A `.error` carries the thrown
error\'s message. -/
structure OrchEnv where
  planning : Except String (TaskMap × TokenUsage)
  specialist : Nat → Except String (SpecialistOnePager × TokenUsage)
  synthesis : Except String (Recipe × TokenUsage)

/-- Emission helper: the source constructs and delivers an event only when a
debug emitter was supplied (source lines 32–41). -/
def emitIf (em : Bool) (evs : List DebugEvent) : List DebugEvent :=
  if em then evs else []

/-- The ExecutionStep recorded for one specialist assignment: a success step
with usage, or a failure step carrying the caught message (source lines
168–202). -/
def specStep (spec : SpecialistAssignment)
    (out : Except String (SpecialistOnePager × TokenUsage)) : ExecutionStep :=
  match out with
  | .ok (_, u) =>
    { agent := spec.name, action := "specialist_contribution", success := true,
      error := none, tokenUsage := some u }
  | .error m =>
    { agent := spec.name, action := "specialist_contribution", success := false,
      error := some m, tokenUsage := none }

/-- The debug events of one specialist task (source lines 129–188). -/
def specEvents (em : Bool) (spec : SpecialistAssignment)
    (out : Except String (SpecialistOnePager × TokenUsage)) : List DebugEvent :=
  match out with
  | .ok _ =>
    emitIf em [.llmRequest spec.name, .llmResponse spec.name,
      .dataParsed spec.name "SpecialistOnePager"]
  | .error m => emitIf em [.llmRequest spec.name, .agentError spec.name m]

/-- The fan-out over the TaskMap\'s assignments (source lines 115–224): one
invocation per assignment, each failure caught locally; results are gathered
in assignment order (`Promise.allSettled` preserves input order). Returns the
steps (one per assignment), the surviving one-pagers, and the events. -/
def runSpecialists (env : OrchEnv) (em : Bool) :
    List SpecialistAssignment → Nat →
      List ExecutionStep × List SpecialistOnePager × List DebugEvent
  | [], _ => ([], [], [])
  | spec :: rest, i =>
    let out := env.specialist i
    let r := runSpecialists env em rest (i + 1)
    (specStep spec out :: r.1,
     (match out with
      | .ok (p, _) => p :: r.2.1
      | .error _ => r.2.1),
     specEvents em spec out ++ r.2.2)

def planningStep (u : TokenUsage) : ExecutionStep :=
  { agent := "sous_chef", action := "planning", success := true, error := none,
    tokenUsage := some u }

def synthesisStep (u : TokenUsage) : ExecutionStep :=
  { agent := "sous_chef", action := "synthesis", success := true, error := none,
    tokenUsage := some u }

/-- The step pushed by the orchestrator\'s catch block (source lines
331–338). -/
def orchErrorStep (msg : String) : ExecutionStep :=
  { agent := "orchestrator", action := "error", success := false,
    error := some msg, tokenUsage := none }

/-- The catch block (source lines 324–353): finalize the log (set `endTime`
and `totalDurationMs`), push the orchestrator error step, emit
`recipe:error`, attach the log to the error and rethrow. -/
def failRun (em : Bool) (msg : String) (ctx : Option (List String))
    (steps : List ExecutionStep) (evs : List DebugEvent) :
    Except OrchError RecipeResult × List DebugEvent :=
  (.error
    { message := msg, attemptedSpecialists := ctx,
      executionLog := some
        { steps := steps ++ [orchErrorStep msg], endTime := some (),
          totalDurationMs := some () } },
   evs ++ emitIf em [.recipeError msg])

/-- `generateRecipe(brief, debugEmitter?)` — the three-phase pipeline of
src/unnamed/part_001 over the outcome environment. `em` records whether a
debug emitter was supplied; the returned list is the sequence of events
delivered to it. -/
def generateRecipe (env : OrchEnv) (em : Bool) :
    Except OrchError RecipeResult × List DebugEvent :=
  match env.planning with
  | .error msg =>
    failRun em msg none []
      (emitIf em [.phaseStart "planning", .llmRequest "sous_chef_planning"])
  | .ok (tm, u) =>
    match hr : runSpecialists env em tm.specialists 0 with
    | (sSteps, pagers, sEvs) =>
      if pagers.isEmpty then
        failRun em "All specialists failed. Cannot proceed to synthesis."
          (some (tm.specialists.map (fun s => s.name)))
          (planningStep u :: sSteps)
          (emitIf em [.phaseStart "planning", .llmRequest "sous_chef_planning",
            .llmResponse "sous_chef_planning", .dataParsed "sous_chef_planning" "TaskMap",
            .phaseComplete "planning" true, .phaseStart "specialists"] ++ sEvs)
      else
        match env.synthesis with
        | .error msg =>
          failRun em msg none (planningStep u :: sSteps)
            (emitIf em [.phaseStart "planning", .llmRequest "sous_chef_planning",
              .llmResponse "sous_chef_planning", .dataParsed "sous_chef_planning" "TaskMap",
              .phaseComplete "planning" true, .phaseStart "specialists"] ++ sEvs ++
             emitIf em [.phaseComplete "specialists" true, .phaseStart "synthesis",
              .llmRequest "sous_chef_synthesis"])
        | .ok (recipe, su) =>
          (.ok
            { recipe := recipe,
              log :=
                { steps := planningStep u :: sSteps ++ [synthesisStep su],
                  endTime := some (), totalDurationMs := some () } },
           emitIf em [.phaseStart "planning", .llmRequest "sous_chef_planning",
             .llmResponse "sous_chef_planning", .dataParsed "sous_chef_planning" "TaskMap",
             .phaseComplete "planning" true, .phaseStart "specialists"] ++ sEvs ++
           emitIf em [.phaseComplete "specialists" true, .phaseStart "synthesis",
             .llmRequest "sous_chef_synthesis", .llmResponse "sous_chef_synthesis",
             .dataParsed "sous_chef_synthesis" "Recipe", .phaseComplete "synthesis" true,
             .recipeComplete])

/-- The log a caller can always retrieve: from the result on success, from
the attached `executionLog` on failure. -/
def resultLog : Except OrchError RecipeResult → Option ExecutionLog
  | .ok r => some r.log
  | .error e => e.executionLog

/-! ## Fan-out lemmas -/

theorem specStep_action (spec : SpecialistAssignment)
    (out : Except String (SpecialistOnePager × TokenUsage)) :
    ((specStep spec out).action == "specialist_contribution") = true := by
  cases out with
  | ok p => rfl
  | error m => rfl

theorem runSpecialists_length (env : OrchEnv) (em : Bool) :
    ∀ (specs : List SpecialistAssignment) (i : Nat),
      (runSpecialists env em specs i).1.length = specs.length := by
  intro specs
  induction specs with
  | nil => intro i; rfl
  | cons s rest ih =>
    intro i
    simp [runSpecialists, ih (i + 1)]

theorem runSpecialists_countP (env : OrchEnv) (em : Bool) :
    ∀ (specs : List SpecialistAssignment) (i : Nat),
      (runSpecialists env em specs i).1.countP
        (fun s => s.action == "specialist_contribution") = specs.length := by
  intro specs
  induction specs with
  | nil => intro i; rfl
  | cons s rest ih =>
    intro i
    simp [runSpecialists, List.countP_cons, specStep_action, ih (i + 1)]

theorem runSpecialists_get (env : OrchEnv) (em : Bool) :
    ∀ (specs : List SpecialistAssignment) (i k : Nat) (spec : SpecialistAssignment),
      specs[k]? = some spec →
      (runSpecialists env em specs i).1[k]? =
        some (specStep spec (env.specialist (i + k))) := by
  intro specs
  induction specs with
  | nil => intro i k spec h; simp at h
  | cons s rest ih =>
    intro i k spec h
    cases k with
    | zero =>
      simp at h
      subst h
      simp [runSpecialists]
    | succ k =>
      simp at h
      have := ih (i + 1) k spec (by simpa using h)
      simp [runSpecialists, this]
      congr 2
      omega

theorem runSpecialists_pagers_nil_iff (env : OrchEnv) (em : Bool) :
    ∀ (specs : List SpecialistAssignment) (i : Nat),
      (runSpecialists env em specs i).2.1 = [] ↔
        ∀ k, k < specs.length → ∃ m, env.specialist (i + k) = .error m := by
  intro specs
  induction specs with
  | nil => intro i; simp [runSpecialists]
  | cons s rest ih =>
    intro i
    cases ho : env.specialist i with
    | ok p =>
      simp only [runSpecialists, ho]
      constructor
      · intro h; exact absurd h (by simp)
      · intro h
        exfalso
        obtain ⟨m, hm⟩ := h 0 (by simp)
        rw [Nat.add_zero] at hm
        rw [ho] at hm
        exact Except.noConfusion hm
    | error m =>
      simp only [runSpecialists, ho]
      rw [ih (i + 1)]
      constructor
      · intro h k hk
        cases k with
        | zero => exact ⟨m, by simpa using ho⟩
        | succ k =>
          obtain ⟨m', hm'⟩ := h k (by simpa using Nat.lt_of_succ_lt_succ hk)
          exact ⟨m', by rw [show i + (k + 1) = i + 1 + k by omega]; exact hm'⟩
      · intro h k hk
        obtain ⟨m', hm'⟩ := h (k + 1) (by simpa using Nat.succ_lt_succ hk)
        exact ⟨m', by rw [show i + 1 + k = i + (k + 1) by omega]; exact hm'⟩

theorem runSpecialists_no_phaseStart (env : OrchEnv) (em : Bool) :
    ∀ (specs : List SpecialistAssignment) (i : Nat) (p : String),
      DebugEvent.phaseStart p ∉ (runSpecialists env em specs i).2.2 := by
  intro specs
  induction specs with
  | nil => intro i p; simp [runSpecialists]
  | cons s rest ih =>
    intro i p
    simp only [runSpecialists, List.mem_append]
    rintro (h | h)
    · cases ho : env.specialist i with
      | ok q => rw [ho] at h; cases em <;> simp [specEvents, emitIf] at h
      | error m => rw [ho] at h; cases em <;> simp [specEvents, emitIf] at h
    · exact ih (i + 1) p h

theorem runSpecialists_em_indep (env : OrchEnv) :
    ∀ (specs : List SpecialistAssignment) (i : Nat),
      (runSpecialists env true specs i).1 = (runSpecialists env false specs i).1 ∧
      (runSpecialists env true specs i).2.1 = (runSpecialists env false specs i).2.1 ∧
      (runSpecialists env false specs i).2.2 = [] := by
  intro specs
  induction specs with
  | nil => intro i; exact ⟨rfl, rfl, rfl⟩
  | cons s rest ih =>
    intro i
    obtain ⟨h1, h2, h3⟩ := ih (i + 1)
    refine ⟨?_, ?_, ?_⟩ <;>
      cases ho : env.specialist i <;>
        simp [runSpecialists, ho, specEvents, emitIf, h1, h2, h3]

/-! ## Concrete fixtures used by the claim witnesses and counterexamples -/

def uW : TokenUsage := { promptTokens := 10, outputTokens := 20, totalTokens := 30 }

def specA : SpecialistAssignment :=
  { name := "boulanger", responsibilities := ["breads and doughs"], priority := 1 }

def tmA : TaskMap := { specialists := [specA], estimatedComplexity := .simple }

/-- A remote endpoint that rejects every attempt with a 429. -/
def envA429 : Nat → AttemptOutcome := fun _ => .raise "429 Too Many Requests"

/-- The specialist-call outcome induced by `callGemini` against `envA429`:
the task's catch records the thrown `LLMError`'s message. -/
def specC5out : Except String (SpecialistOnePager × TokenUsage) :=
  match (callGemini "boulanger" envA429).result with
  | .error e => .error (llmMessage e)
  | .ok r => .ok ({ specialist := "boulanger", «section» := "", notes := "" }, r.tokenUsage)

def envC5 : OrchEnv :=
  { planning := .ok (tmA, uW), specialist := fun _ => specC5out,
    synthesis := .error "not invoked" }

def envC5w : OrchEnv :=
  { planning := .ok (tmA, uW), specialist := fun _ => .error "boom",
    synthesis := .error "not invoked" }

def envC1w : OrchEnv :=
  { planning := .ok (tmA, uW),
    specialist := fun _ =>
      .ok ({ specialist := "boulanger", «section» := "Breads", notes := "knead well" }, uW),
    synthesis := .ok ({ id := "r1", title := "Sourdough" }, uW) }

def rC7 : RemoteResponse := { candidates := [], text := "", usage := uW }

def envC7 : Nat → AttemptOutcome := fun _ => .response rC7

/-- A Zod-style validator for the SpecialistOnePager schema: a three-field
object of strings is accepted unchanged, anything else is rejected with the
formatted issue list. -/
def checkOnePager : Json → Except String Json
  | .obj (.cons "specialist" (.str s)
      (.cons "section" (.str sec) (.cons "notes" (.str n) .nil))) =>
    .ok (.obj (.cons "specialist" (.str s)
      (.cons "section" (.str sec) (.cons "notes" (.str n) .nil))))
  | _ => .error "specialist: Required, section: Required, notes: Required"

/-- The one-pager value serialized by `onePagerEscText`: its `notes` string
holds a newline, a quote and a backslash. -/
def onePagerEscFields : JsonFields :=
  .cons "specialist" (.str "saucier")
    (.cons "section" (.str "Sauces")
      (.cons "notes" (.str "line1\nline2 \"q\" a\\b") .nil))

/-- A non-canonical legal serialization of `.obj onePagerEscFields`: extra
whitespace, short escapes and a `\uXXXX` escape inside string values. -/
def onePagerEscText : String :=
  "  \x7b \"specialist\": \"saucier\",\n  \"section\": \"S\\u0061uces\",\n  \"notes\": \"line1\\nline2 \\\"q\\\" a\\\\b\" \x7d  "

def onePagerBadFields : JsonFields :=
  .cons "specialist" (.str "saucier")
    (.cons "section" (.str "Sauces")
      (.cons "notes" (.str "see https://x.test//docs") .nil))

/-! ## Claims -/

theorem except_error_or_ok {α : Type} (e : Except String α) :
    (∃ m, e = .error m) ∨ (∃ p, e = .ok p) := by
  cases e with
  | ok p => exact Or.inr ⟨p, rfl⟩
  | error m => exact Or.inl ⟨m, rfl⟩

/-- Count and position facts for every terminal step list: the Planning step,
the fan-out steps in assignment order, then one trailing step. -/
theorem log_steps_facts (env : OrchEnv) (em : Bool) (tm : TaskMap) (u : TokenUsage)
    (extra : List ExecutionStep)
    (hex : extra.countP (fun s => s.action == "specialist_contribution") = 0) :
    (planningStep u :: ((runSpecialists env em tm.specialists 0).1 ++ extra)).countP
        (fun s => s.action == "specialist_contribution") = tm.specialists.length ∧
    (∀ k spec, tm.specialists[k]? = some spec →
      (planningStep u :: ((runSpecialists env em tm.specialists 0).1 ++ extra))[k + 1]? =
        some (specStep spec (env.specialist k))) := by
  constructor
  · have hc := runSpecialists_countP env em tm.specialists 0
    simp [List.countP_cons, List.countP_append, hc, hex, planningStep]
  · intro k spec hk
    have hk' : k < tm.specialists.length := by
      by_contra hcon
      rw [List.getElem?_eq_none (by omega)] at hk
      exact Option.noConfusion hk
    have hg := runSpecialists_get env em tm.specialists 0 k spec hk
    rw [Nat.zero_add] at hg
    have hlen : k < (runSpecialists env em tm.specialists 0).1.length := by
      rw [runSpecialists_length]; omega
    simp only [List.getElem?_cons_succ]
    rw [List.getElem?_append, if_pos hlen]
    exact hg

/-- C1: for a TaskMap with N assignments the Specialists phase records
exactly N `specialist_contribution` steps (one per assignment, failures
recorded in place rather than propagated); Synthesis is entered iff at least
one invocation succeeds; when all fail the run fails with the aggregate error
naming every attempted specialist. -/
theorem claim_C1 (env : OrchEnv) (em : Bool) (tm : TaskMap) (u : TokenUsage)
    (hp : env.planning = .ok (tm, u)) :
    (∃ l, resultLog (generateRecipe env em).1 = some l ∧
      l.steps.countP (fun s => s.action == "specialist_contribution") =
        tm.specialists.length ∧
      (∀ k spec, tm.specialists[k]? = some spec →
        l.steps[k + 1]? = some (specStep spec (env.specialist k)))) ∧
    ((∃ k, k < tm.specialists.length ∧ ∃ p, env.specialist k = .ok p) ↔
      DebugEvent.phaseStart "synthesis" ∈ (generateRecipe env true).2) ∧
    ((∀ k, k < tm.specialists.length → ∃ m, env.specialist k = .error m) →
      ∃ e, (generateRecipe env em).1 = .error e ∧
        e.message = "All specialists failed. Cannot proceed to synthesis." ∧
        e.attemptedSpecialists = some (tm.specialists.map (fun s => s.name))) := by
  have hnil_iff : ∀ em', (runSpecialists env em' tm.specialists 0).2.1 = [] ↔
      ∀ k, k < tm.specialists.length → ∃ m, env.specialist k = .error m := by
    intro em'
    rw [runSpecialists_pagers_nil_iff env em' tm.specialists 0]
    constructor
    · intro h k hk; simpa using h k hk
    · intro h k hk; simpa using h k hk
  refine ⟨?_, ?_, ?_⟩
  · rcases hE : runSpecialists env em tm.specialists 0 with ⟨sSteps, pagers, sEvs⟩
    simp only [generateRecipe, hp, hE]
    by_cases hq : pagers.isEmpty
    · rw [if_pos hq]
      obtain ⟨hc, hg⟩ := log_steps_facts env em tm u
        [orchErrorStep "All specialists failed. Cannot proceed to synthesis."] rfl
      rw [hE] at hc hg
      exact ⟨_, rfl, by simpa using hc, fun k spec hk => by simpa using hg k spec hk⟩
    · rw [if_neg hq]
      rcases hs : env.synthesis with msg | ⟨r, su⟩ <;> simp only [hs]
      · obtain ⟨hc, hg⟩ := log_steps_facts env em tm u [orchErrorStep msg] rfl
        rw [hE] at hc hg
        exact ⟨_, rfl, by simpa using hc, fun k spec hk => by simpa using hg k spec hk⟩
      · obtain ⟨hc, hg⟩ := log_steps_facts env em tm u [synthesisStep su] rfl
        rw [hE] at hc hg
        exact ⟨_, rfl, by simpa using hc, fun k spec hk => by simpa using hg k spec hk⟩
  · rcases hEt : runSpecialists env true tm.specialists 0 with ⟨tSteps, tPagers, tEvs⟩
    have hnil : tPagers = [] ↔
        ∀ k, k < tm.specialists.length → ∃ m, env.specialist k = .error m := by
      rw [← hnil_iff true, hEt]
    have hnops : ∀ p, DebugEvent.phaseStart p ∉ tEvs := by
      intro p
      have := runSpecialists_no_phaseStart env true tm.specialists 0 p
      rw [hEt] at this
      exact this
    simp only [generateRecipe, hp, hEt]
    constructor
    · intro hex
      have hne : ¬tPagers = [] := by
        rw [hnil]
        intro hall
        obtain ⟨k, hk, p, hkp⟩ := hex
        obtain ⟨m, hm⟩ := hall k hk
        rw [hkp] at hm
        exact Except.noConfusion hm
      rw [if_neg (by simpa [List.isEmpty_iff] using hne)]
      rcases hs : env.synthesis with msg | ⟨r, su⟩ <;> simp only [hs]
      · simp [failRun, emitIf]
      · simp [emitIf]
    · intro hmem
      by_contra hnone
      have hall : ∀ k, k < tm.specialists.length → ∃ m, env.specialist k = .error m := by
        intro k hk
        rcases except_error_or_ok (env.specialist k) with ⟨m, hm⟩ | ⟨p, hkp⟩
        · exact ⟨m, hm⟩
        · exact absurd ⟨k, hk, p, hkp⟩ hnone
      rw [if_pos (by simpa [List.isEmpty_iff] using hnil.mpr hall)] at hmem
      simp only [failRun, emitIf, if_true, List.mem_append, List.mem_cons,
        List.mem_singleton] at hmem
      rcases hmem with ((h | h | h | h | h | h | h) | h) | h
      all_goals first
        | exact DebugEvent.noConfusion h
        | simp at h
        | exact absurd h (hnops "synthesis")
  · intro hall
    rcases hE : runSpecialists env em tm.specialists 0 with ⟨sSteps, pagers, sEvs⟩
    have hnil : pagers = [] := by
      have := (hnil_iff em).mpr hall
      rw [hE] at this
      exact this
    simp only [generateRecipe, hp, hE]
    rw [if_pos (by simpa [List.isEmpty_iff] using hnil)]
    exact ⟨_, rfl, rfl, rfl⟩

/-- Witness for C1 at a concrete one-specialist environment whose specialist
succeeds. -/
theorem claim_C1_witness :
    ((∃ l, resultLog (generateRecipe envC1w true).1 = some l ∧
      l.steps.countP (fun s => s.action == "specialist_contribution") =
        tmA.specialists.length ∧
      (∀ k spec, tmA.specialists[k]? = some spec →
        l.steps[k + 1]? = some (specStep spec (envC1w.specialist k)))) ∧
    ((∃ k, k < tmA.specialists.length ∧ ∃ p, envC1w.specialist k = .ok p) ↔
      DebugEvent.phaseStart "synthesis" ∈ (generateRecipe envC1w true).2) ∧
    ((∀ k, k < tmA.specialists.length → ∃ m, envC1w.specialist k = .error m) →
      ∃ e, (generateRecipe envC1w true).1 = .error e ∧
        e.message = "All specialists failed. Cannot proceed to synthesis." ∧
        e.attemptedSpecialists = some (tmA.specialists.map (fun s => s.name)))) :=
  claim_C1 envC1w true tmA uW rfl

/-- C2: the invoker makes at most 3 attempts; the number of back-off sleeps
is attempts − 1 and the sleeps are exactly the strictly increasing prefix of
[1000 ms, 2000 ms]; a propagated failure carries the agent identifier, and it
is raised only on budget exhaustion or a non-retryable cause. -/
theorem claim_C2 (agent : String) (env : Nat → AttemptOutcome) :
    (callGemini agent env).attempts ≤ 3 ∧
    (callGemini agent env).attempts = (callGemini agent env).sleeps.length + 1 ∧
    ((callGemini agent env).sleeps = [] ∨ (callGemini agent env).sleeps = [1000] ∨
      (callGemini agent env).sleeps = [1000, 2000]) ∧
    (∀ e, (callGemini agent env).result = .error e → e.agent = agent) ∧
    (∀ e, (callGemini agent env).result = .error e →
      (callGemini agent env).attempts = 3 ∨ isRetryableError e.cause = false) := by
  cases h1 : attemptResult (env 1) with
  | ok r => simp [callGemini, callGeminiLoop, h1, maxRetries]
  | error m1 =>
    by_cases hr1 : isRetryableError m1 = true
    · cases h2 : attemptResult (env 2) with
      | ok r =>
        simp [callGemini, callGeminiLoop, h1, h2, hr1, maxRetries, baseDelay]
      | error m2 =>
        by_cases hr2 : isRetryableError m2 = true
        · cases h3 : attemptResult (env 3) with
          | ok r =>
            simp [callGemini, callGeminiLoop, h1, h2, h3, hr1, hr2, maxRetries, baseDelay]
          | error m3 =>
            simp [callGemini, callGeminiLoop, h1, h2, h3, hr1, hr2, maxRetries, baseDelay]
        · simp [callGemini, callGeminiLoop, h1, h2, hr1, hr2, maxRetries, baseDelay,
            Bool.not_eq_true] at *
    · simp [callGemini, callGeminiLoop, h1, hr1, maxRetries, Bool.not_eq_true] at *

/-- C3: every run, successful or failed, yields a retrievable ExecutionLog
whose endTime and totalDuration are set. -/
theorem claim_C3 (env : OrchEnv) (em : Bool) :
    ∃ l, resultLog (generateRecipe env em).1 = some l ∧
      l.endTime.isSome = true ∧ l.totalDurationMs.isSome = true := by
  rcases hp : env.planning with msg | ⟨tm, u⟩
  · simp only [generateRecipe, hp]
    exact ⟨_, rfl, rfl, rfl⟩
  · rcases hE : runSpecialists env em tm.specialists 0 with ⟨sSteps, pagers, sEvs⟩
    simp only [generateRecipe, hp, hE]
    by_cases hq : pagers.isEmpty
    · rw [if_pos hq]
      exact ⟨_, rfl, rfl, rfl⟩
    · rw [if_neg hq]
      rcases hs : env.synthesis with msg | ⟨r, su⟩ <;> simp only [hs]
      · exact ⟨_, rfl, rfl, rfl⟩
      · exact ⟨_, rfl, rfl, rfl⟩

/-- C4: the count-naming array error of the direct-parse block is thrown,
but the function's own catch swallows it: the caller of
`extractJSON("[1,2]")` sees the generic no-valid-JSON error instead, and for
`[\x7b"a":1\x7d,2]` the brace-match fallback even returns a spurious
success. -/
theorem claim_C4 :
    extractDirect (cleanText ("[1,2]" : String).data) none =
      .error (.plain
        "JSON validation failed: expected object, received array with 2 elements") ∧
    extractJSON "[1,2]" none = .error ("No valid JSON found in response:\n[1,2]...") ∧
    extractJSON "[\x7b\"a\":1\x7d,2]" none = .ok (.obj (.cons "a" (.num 1) .nil)) :=
  ⟨rfl, rfl, rfl⟩

/-- C5 (amended): with a single assignment whose invocation fails, the run
fails with the aggregate error naming that specialist, and the attached log
has exactly 3 steps: the Planning step, one failed specialist step for the
whole (internally retried) invocation, and the orchestrator's error step. -/
theorem claim_C5 (env : OrchEnv) (em : Bool) (tm : TaskMap) (u : TokenUsage)
    (spec : SpecialistAssignment) (msg : String)
    (hp : env.planning = .ok (tm, u))
    (hs : tm.specialists = [spec])
    (hf : env.specialist 0 = .error msg) :
    ∃ e, (generateRecipe env em).1 = .error e ∧
      e.message = "All specialists failed. Cannot proceed to synthesis." ∧
      e.attemptedSpecialists = some [spec.name] ∧
      ∃ l, e.executionLog = some l ∧
        l.steps = [planningStep u, specStep spec (.error msg),
          orchErrorStep "All specialists failed. Cannot proceed to synthesis."] ∧
        l.steps.length = 3 := by
  have hrun : runSpecialists env em tm.specialists 0 =
      ([specStep spec (.error msg)], [], specEvents em spec (.error msg)) := by
    rw [hs]
    simp [runSpecialists, hf]
  simp only [generateRecipe, hp, hrun]
  rw [if_pos (by simp)]
  refine ⟨_, rfl, rfl, ?_, _, rfl, ?_, ?_⟩
  · simp [hs]
  · simp
  · simp

/-- Witness for C5 at a concrete one-specialist environment that fails. -/
theorem claim_C5_witness :
    ∃ e, (generateRecipe envC5w false).1 = .error e ∧
      e.message = "All specialists failed. Cannot proceed to synthesis." ∧
      e.attemptedSpecialists = some [specA.name] ∧
      ∃ l, e.executionLog = some l ∧
        l.steps = [planningStep uW, specStep specA (.error "boom"),
          orchErrorStep "All specialists failed. Cannot proceed to synthesis."] ∧
        l.steps.length = 3 :=
  claim_C5 envC5w false tmA uW specA "boom" rfl rfl rfl

/-- Counterexample to C5 as stated: specialist A's three 429-failed attempts
happen inside the invoker (3 attempts, back-offs 1000 ms and 2000 ms) and are
recorded as ONE failed step, so the attached log has 3 steps (planning,
specialist, orchestrator error), not 3 attempt steps plus planning = 4. -/
theorem claim_C5_cex :
    (callGemini "boulanger" envA429).attempts = 3 ∧
    (callGemini "boulanger" envA429).sleeps = [1000, 2000] ∧
    (generateRecipe envC5 false).1 = .error
      { message := "All specialists failed. Cannot proceed to synthesis.",
        attemptedSpecialists := some ["boulanger"],
        executionLog := some
          { steps := [planningStep uW,
              specStep specA
                (.error "LLM agent 'boulanger' failed: 429 Too Many Requests"),
              orchErrorStep "All specialists failed. Cannot proceed to synthesis."],
            endTime := some (), totalDurationMs := some () } } ∧
    ([planningStep uW,
      specStep specA (.error "LLM agent 'boulanger' failed: 429 Too Many Requests"),
      orchErrorStep "All specialists failed. Cannot proceed to synthesis."] :
        List ExecutionStep).length = 3 ∧
    ¬(3 = 1 + 3) :=
  ⟨rfl, rfl, rfl, rfl, by decide⟩

/-- C6 (amended): extraction returns the value for every response text that
contains none of the cleaning rewrites' targets and whose trimmed text is a
legal JSON serialization of a conforming object value, under any schema
validator that accepts the value unchanged. -/
theorem claim_C6 (s : String) (fs : JsonFields)
    (validate : Json → Except String Json)
    (hneutral : cleanNeutral s.data = true)
    (hparse : jsonParseL (trimL s.data) = some (.obj fs))
    (hval : validate (.obj fs) = .ok (.obj fs)) :
    extractJSON s (some validate) = .ok (.obj fs) := by
  have hclean : cleanText s.data = s.data := cleanText_id _ hneutral
  have hdirect : extractDirect s.data (some validate) = .ok (.obj fs) := by
    unfold extractDirect
    rw [hparse]
    simp [unwrapSingle, hval]
  unfold extractJSON
  rw [hclean, hdirect]

/-- Witness for C6 at a concrete non-canonical serialization: extra
whitespace, short escapes and a unicode escape inside string values. -/
theorem claim_C6_witness :
    extractJSON onePagerEscText (some checkOnePager) = .ok (.obj onePagerEscFields) :=
  claim_C6 onePagerEscText onePagerEscFields checkOnePager (by decide) rfl rfl

/-- Counterexample to C6 as stated: a schema-conforming one-pager whose
`notes` string contains `//` fails extraction outright, because the comment
rewrite fires inside the string literal. -/
theorem claim_C6_cex :
    checkOnePager (.obj onePagerBadFields) = .ok (.obj onePagerBadFields) ∧
    extractJSON (String.mk (renderJson (.obj onePagerBadFields))) (some checkOnePager) =
      .error ("No valid JSON found in response:\n"
        ++ first500 (String.mk (renderJson (.obj onePagerBadFields))) ++ "...") ∧
    ¬(extractJSON (String.mk (renderJson (.obj onePagerBadFields))) (some checkOnePager) =
      .ok (.obj onePagerBadFields)) :=
  ⟨rfl, rfl, fun h => Except.noConfusion h⟩

/-- C7: a resolved response with no candidate, or with an abnormal finish
reason, raises at once as a non-retryable failure (1 attempt, no sleeps)
whose message includes the reason. -/
theorem claim_C7 (agent : String) (env : Nat → AttemptOutcome)
    (r : RemoteResponse) (h : env 1 = .response r) :
    (r.candidates.head? = none →
      callGemini agent env =
        { result := .error { agent := agent, cause := "No response candidate returned" },
          attempts := 1, sleeps := [] } ∧
      isRetryableError "No response candidate returned" = false) ∧
    (∀ c fr, r.candidates.head? = some c → c.finishReason = some fr → ¬(fr = .STOP) →
      callGemini agent env =
        { result := .error { agent := agent, cause := stopMsg fr },
          attempts := 1, sleeps := [] } ∧
      containsStr (stopMsg fr) (frName fr) = true ∧
      isRetryableError (stopMsg fr) = false) := by
  constructor
  · intro hnone
    have hv : attemptResult (env 1) = .error "No response candidate returned" := by
      rw [h]; simp [attemptResult, validateResponse, hnone]
    refine ⟨?_, noCandidate_not_retryable⟩
    simp [callGemini, callGeminiLoop, hv, maxRetries, noCandidate_not_retryable]
  · intro c fr hc hfr hstop
    have hv : attemptResult (env 1) = .error (stopMsg fr) := by
      rw [h]; simp [attemptResult, validateResponse, hc, hfr, hstop]
    refine ⟨?_, stopMsg_contains_reason fr, stopMsg_not_retryable fr⟩
    simp [callGemini, callGeminiLoop, hv, maxRetries, stopMsg_not_retryable fr]

/-- Witness for C7 at a concrete response with no candidates. -/
theorem claim_C7_witness :
    ((rC7.candidates.head? = none →
      callGemini "saucier" envC7 =
        { result := .error { agent := "saucier", cause := "No response candidate returned" },
          attempts := 1, sleeps := [] } ∧
      isRetryableError "No response candidate returned" = false) ∧
    (∀ c fr, rC7.candidates.head? = some c → c.finishReason = some fr → ¬(fr = .STOP) →
      callGemini "saucier" envC7 =
        { result := .error { agent := "saucier", cause := stopMsg fr },
          attempts := 1, sleeps := [] } ∧
      containsStr (stopMsg fr) (frName fr) = true ∧
      isRetryableError (stopMsg fr) = false)) :=
  claim_C7 "saucier" envC7 rC7 rfl

/-- C9: supplying a debug emitter never changes the pipeline's result, and
with no emitter no event is ever delivered: emission is a pure side-effect
outside control flow. -/
theorem claim_C9 (env : OrchEnv) :
    (generateRecipe env true).1 = (generateRecipe env false).1 ∧
    (generateRecipe env false).2 = [] := by
  rcases hp : env.planning with msg | ⟨tm, u⟩
  · simp only [generateRecipe, hp]
    constructor <;> simp [failRun, emitIf]
  · obtain ⟨h1, h2, h3⟩ := runSpecialists_em_indep env tm.specialists 0
    rcases hEf : runSpecialists env false tm.specialists 0 with ⟨fSteps, fPagers, fEvs⟩
    rcases hEt : runSpecialists env true tm.specialists 0 with ⟨tSteps, tPagers, tEvs⟩
    rw [hEf] at h1 h2 h3
    rw [hEt] at h1 h2
    simp at h1 h2 h3
    subst h1
    subst h2
    subst h3
    simp only [generateRecipe, hp, hEf, hEt]
    by_cases hq : tPagers.isEmpty
    · rw [if_pos hq, if_pos hq]
      constructor <;> simp [failRun, emitIf]
    · rw [if_neg hq, if_neg hq]
      rcases hs : env.synthesis with msg | ⟨r, su⟩ <;> simp only [hs]
      · constructor <;> simp [failRun, emitIf]
      · constructor <;> simp [emitIf]

/-- C10: the cleaning rewrites ignore JSON string boundaries: the well-formed
input `\x7b"a":"b//c"\x7d` parses directly, yet `extractJSON` without a
schema fails on it entirely, because the line-comment rewrite truncates the
text inside the string value. -/
theorem claim_C10 :
    jsonParse "\x7b\"a\":\"b//c\"\x7d" = some (.obj (.cons "a" (.str "b//c") .nil)) ∧
    extractJSON "\x7b\"a\":\"b//c\"\x7d" none =
      .error ("No valid JSON found in response:\n\x7b\"a\":\"b//c\"\x7d...") :=
  ⟨rfl, rfl⟩

end CulinaryAdvisor
